import Mathlib

/-!
# Verification of the ta-rust stateful indicator core

Shallow embedding of the recursive/adaptive indicator engine of the
`ta-rust` repository (EMA, ATR, the directional-movement pipeline,
RSI, parabolic SAR and the MAMA adaptive filter), together with proofs
and refutations of the specified properties.

Modelling conventions:
* An IEEE double that is known to be finite on every reachable path is
  modelled as a rational number `ℚ` (exact arithmetic).
* An output cell that may hold the NaN sentinel is modelled as
  `Option ℚ`, with `none` standing for NaN; the arithmetic on such
  cells (`fadd`, `fmul`, ...) propagates `none` exactly as IEEE
  arithmetic propagates NaN, and the comparisons (`flt`) are `false` as
  soon as one operand is `none`, exactly as IEEE comparisons on NaN.
  Every division performed by the embedded code on `some` operands is
  guarded by the source so that the divisor is non-zero.
* The transcendental quantities of the MAMA filter (`2π / atan2(im,re)`
  and `atan2(q1,i1)`) are taken as oracle parameters of the embedding;
  all the proved properties hold for every oracle, and all concrete
  evaluations happen on inputs where the oracle value is irrelevant.
-/

/-- A possibly-NaN double: `none` is the NaN sentinel. -/
abbrev F := Option ℚ

/-- NaN-propagating addition (IEEE: `NaN + x = NaN`). -/
def fadd : F → F → F
  | some a, some b => some (a + b)
  | _, _ => none

/-- NaN-propagating subtraction. -/
def fsub : F → F → F
  | some a, some b => some (a - b)
  | _, _ => none

/-- NaN-propagating multiplication (IEEE: `NaN * 0 = NaN`). -/
def fmul : F → F → F
  | some a, some b => some (a * b)
  | _, _ => none

/-- NaN-propagating division.  Every division reached by the embedded
code has a divisor that is either `none` or a non-zero rational, so the
`x / 0` corner never arises. -/
def fdiv : F → F → F
  | some a, some b => some (a / b)
  | _, _ => none

/-- NaN-propagating absolute value. -/
def fabs : F → F
  | some a => some |a|
  | none => none

/-- IEEE `<`: false whenever an operand is NaN. -/
def flt : F → F → Bool
  | some a, some b => decide (a < b)
  | _, _ => false

/-- Error kinds of `TAError` (`src/common/errors.rs`); the string
payloads are dropped, the numeric payload of `InsufficientData` is
kept. -/
inductive TAError where
  | insufficientData (required provided : Nat)
  | invalidParameter
  | emptyInput
  | mismatchedInputs
  | invalidInput
  | numericalError
  | unsupportedOperation
  | internalError
deriving DecidableEq, Repr

/-- Sum of a list of possibly-NaN cells, `none` if any cell is NaN
(models `iter().sum()` over f64). -/
def fsum (xs : List F) : F := xs.foldl fadd (some 0)

/-! ## True Range (`src/volatility/trange.rs`) -/

/-- One row of the OHLC validation performed by `trange` (the
finiteness test is vacuous over `ℚ`). -/
def hlcRowOk (h l c : ℚ) : Bool := !decide (h < l) && !(decide (h < c) || decide (l > c))

/-- The validation loop of `trange`. -/
def hlcOk (high low close : List ℚ) : Bool :=
  (List.range high.length).all fun i =>
    hlcRowOk (high.getD i 0) (low.getD i 0) (close.getD i 0)

/-- The True Range series: `tr[0] = high[0] - low[0]`,
`tr[i] = max(high[i]-low[i], |high[i]-close[i-1]|, |low[i]-close[i-1]|)`. -/
def trangeList (high low close : List ℚ) : List ℚ :=
  (List.range high.length).map fun i =>
    if i = 0 then high.getD 0 0 - low.getD 0 0
    else
      max (max (high.getD i 0 - low.getD i 0) |high.getD i 0 - close.getD (i-1) 0|)
        |low.getD i 0 - close.getD (i-1) 0|

/-- `trange` (`src/volatility/trange.rs`): validation then the TR
series. -/
def trange (high low close : List ℚ) : Except TAError (List ℚ) :=
  if high.isEmpty ∨ low.isEmpty ∨ close.isEmpty then .error .invalidInput
  else if high.length ≠ low.length ∨ high.length ≠ close.length then .error .mismatchedInputs
  else if ¬ hlcOk high low close then .error .invalidInput
  else .ok (trangeList high low close)

/-! ## Exponential smoothing (`src/overlap/ema.rs`, `src/volatility/atr.rs`) -/

/-- The EMA forward scan: from the previous smoothed value `prev`,
emit `x*m + prev*(1-m)` for each remaining sample (the body of the
`for i in period..len` loop of `ema`). -/
def emaScan (m : ℚ) (prev : F) : List F → List F
  | [] => []
  | x :: xs =>
    let v := fadd (fmul x (some m)) (fmul prev (some (1 - m)))
    v :: emaScan m v xs

/-- The defined part of `ema`: sentinel prefix, SMA seed at
`period-1`, then the exponential recursion with `m = 2/(period+1)`. -/
def emaCore (data : List F) (period : Nat) : List F :=
  let m : ℚ := 2 / (period + 1)
  let seed : F := fdiv (fsum (data.take period)) (some period)
  List.replicate (period - 1) none ++ seed :: emaScan m seed (data.drop period)

/-- `ema` (`src/overlap/ema.rs`): validations in source order, then
`emaCore`. -/
def ema (data : List F) (period : Nat) : Except TAError (List F) :=
  if data.isEmpty then .error .invalidInput
  else if period = 0 then .error .invalidParameter
  else if data.length < period then .error (.insufficientData period data.length)
  else .ok (emaCore data period)

/-- The Wilder scan of `atr` over exact rationals (the
`for i in period..len` loop of `atr`). -/
def atrScan (alpha : ℚ) (prev : ℚ) : List ℚ → List ℚ
  | [] => []
  | t :: ts =>
    let v := alpha * t + (1 - alpha) * prev
    v :: atrScan alpha v ts

/-- The defined part of `atr`: sentinel prefix, SMA-of-TR seed, Wilder
recursion with `alpha = 1/period`. -/
def atrCore (tr : List ℚ) (period : Nat) : List F :=
  let alpha : ℚ := 1 / period
  let seed : ℚ := (tr.take period).sum / period
  List.replicate (period - 1) none ++ (seed :: atrScan alpha seed (tr.drop period)).map some

/-- `atr` (`src/volatility/atr.rs`): validations in source order,
`trange`, then the Wilder smoothing. -/
def atr (high low close : List ℚ) (period : Nat) : Except TAError (List F) :=
  if high.isEmpty ∨ low.isEmpty ∨ close.isEmpty then .error .invalidInput
  else if high.length ≠ low.length ∨ high.length ≠ close.length then .error .mismatchedInputs
  else if period = 0 then .error .invalidParameter
  else if high.length < period then .error (.insufficientData period high.length)
  else do
    let tr ← trange high low close
    .ok (atrCore tr period)

/-! ## The spec's Wilder smoothing, for refinement comparisons.

Modelled from the spec: "produce a series `y` where `y[period-1]` is
the arithmetic mean of `x[0..period]` (the seed) and for `i ≥ period`,
`y[i] = α·x[i] + (1-α)·y[i-1]`, with ... `α = 1/period` for
Wilder-style smoothing.  Entries before the seed index are the warm-up
sentinel." -/

/-- The spec's Wilder recursion step, `y[i] = α·x[i] + (1-α)·y[i-1]`. -/
def wilderScan (alpha : ℚ) (prev : F) : List F → List F
  | [] => []
  | x :: xs =>
    let v := fadd (fmul (some alpha) x) (fmul (some (1 - alpha)) prev)
    v :: wilderScan alpha v xs

/-- Modelled from the spec: Wilder smoothing of a series — sentinel
prefix, arithmetic-mean seed at index `period-1`, exponential
recursion with coefficient `α = 1/period`. -/
def wilderSmoothSpec (data : List F) (period : Nat) : List F :=
  let alpha : ℚ := 1 / period
  let seed : F := fdiv (fsum (data.take period)) (some period)
  List.replicate (period - 1) none ++ seed :: wilderScan alpha seed (data.drop period)

/-! ## Directional movement (`src/momentum/plus_dm.rs`, `minus_dm.rs`) -/

/-- The defined `+DM` cell for `i ≥ 1`. -/
def plusDMCell (hPrev lPrev hCur lCur : ℚ) : ℚ :=
  let up := hCur - hPrev
  let down := lPrev - lCur
  if up > 0 ∧ up > down then up else 0

/-- The defined `-DM` cell for `i ≥ 1`. -/
def minusDMCell (hPrev lPrev hCur lCur : ℚ) : ℚ :=
  let up := hCur - hPrev
  let down := lPrev - lCur
  if down > 0 ∧ down > up then down else 0

/-- `plus_dm` (`src/momentum/plus_dm.rs`): NaN at index 0, then
`+DM[i]`. -/
def plus_dm (high low : List ℚ) : Except TAError (List F) :=
  if low.length ≠ high.length then .error .mismatchedInputs
  else .ok ((List.range high.length).map fun i =>
    if i = 0 then none
    else some (plusDMCell (high.getD (i-1) 0) (low.getD (i-1) 0) (high.getD i 0) (low.getD i 0)))

/-- `minus_dm` (`src/momentum/minus_dm.rs`). -/
def minus_dm (high low : List ℚ) : Except TAError (List F) :=
  if low.length ≠ high.length then .error .mismatchedInputs
  else .ok ((List.range high.length).map fun i =>
    if i = 0 then none
    else some (minusDMCell (high.getD (i-1) 0) (low.getD (i-1) 0) (high.getD i 0) (low.getD i 0)))

/-! ## DI / DX / ADX / ADXR (`src/momentum/{plus_di,minus_di,dx,adx,adxr}.rs`) -/

/-- The near-zero threshold `1e-12` used by the DI and DX guards. -/
def eps : ℚ := 1 / 10 ^ 12

/-- One output cell of `plus_di`/`minus_di`:
`0` when `atr[i].abs() < 1e-12`, else `100 * dm[i] / atr[i]`. -/
def diCell (dm a : F) : F :=
  if flt (fabs a) (some eps) then some 0
  else fdiv (fmul (some 100) dm) a

/-- `plus_di` (`src/momentum/plus_di.rs`): length check, raw `+DM`,
`atr`, then the per-cell division. -/
def plus_di (high low close : List ℚ) (period : Nat) : Except TAError (List F) :=
  if high.length ≠ close.length ∨ low.length ≠ close.length then .error .mismatchedInputs
  else do
    let plusdm ← plus_dm high low
    let a ← atr high low close period
    .ok ((List.range close.length).map fun i => diCell (plusdm.getD i none) (a.getD i none))

/-- `minus_di` (`src/momentum/minus_di.rs`). -/
def minus_di (high low close : List ℚ) (period : Nat) : Except TAError (List F) :=
  if high.length ≠ close.length ∨ low.length ≠ close.length then .error .mismatchedInputs
  else do
    let minusdm ← minus_dm high low
    let a ← atr high low close period
    .ok ((List.range close.length).map fun i => diCell (minusdm.getD i none) (a.getD i none))

/-- One output cell of `dx`: `0` when `|+DI| + |-DI| < 1e-12`, else
`100 * |+DI - -DI| / (|+DI| + |-DI|)`. -/
def dxCell (p m : F) : F :=
  let denom := fadd (fabs p) (fabs m)
  if flt denom (some eps) then some 0
  else fdiv (fmul (some 100) (fabs (fsub p m))) denom

/-- `dx` (`src/momentum/dx.rs`). -/
def dx (high low close : List ℚ) (period : Nat) : Except TAError (List F) :=
  if high.length ≠ close.length ∨ low.length ≠ close.length then .error .mismatchedInputs
  else do
    let plusdi ← plus_di high low close period
    let minusdi ← minus_di high low close period
    .ok ((List.range close.length).map fun i => dxCell (plusdi.getD i none) (minusdi.getD i none))

/-- `adx` (`src/momentum/adx.rs`): `ema(dx(high,low,close,period), period)`. -/
def adx (high low close : List ℚ) (period : Nat) : Except TAError (List F) := do
  let dxv ← dx high low close period
  let adxv ← ema dxv period
  .ok adxv

/-- `adxr` (`src/momentum/adxr.rs`): NaN for `i < period`, then
`(adx[i] + adx[i-period]) / 2`. -/
def adxr (high low close : List ℚ) (period : Nat) : Except TAError (List F) := do
  let adxv ← adx high low close period
  .ok ((List.range adxv.length).map fun i =>
    if i < period then none
    else fdiv (fadd (adxv.getD i none) (adxv.getD (i - period) none)) (some 2))

/-! ## RSI (`src/momentum/rsi.rs`) -/

/-- One RSI output value from the smoothed gain/loss pair:
`100` when the average loss is zero, else `100 - 100/(1 + rs)`. -/
def rsiVal (g l : ℚ) : ℚ :=
  if l = 0 then 100 else 100 - 100 / (1 + g / l)

/-- The Wilder scan of `rsi`: the running `(avg_gain, avg_loss)` pair
mapped through `rsiVal` (the `for i in (period+1)..len` loop). -/
def rsiScan (alpha : ℚ) (g l : ℚ) : List (ℚ × ℚ) → List ℚ
  | [] => []
  | (gn, ln) :: rest =>
    let g' := alpha * gn + (1 - alpha) * g
    let l' := alpha * ln + (1 - alpha) * l
    rsiVal g' l' :: rsiScan alpha g' l' rest

/-- The gain/loss streams of `rsi`: for each first difference `Δ`,
`(max(Δ,0), max(-Δ,0))` — written as the source writes them. -/
def gainsLosses : List ℚ → List (ℚ × ℚ)
  | a :: b :: rest =>
    (if b - a > 0 then b - a else 0, if b - a < 0 then -(b - a) else 0) :: gainsLosses (b :: rest)
  | _ => []

/-- `rsi` (`src/momentum/rsi.rs`): the finiteness validation is
vacuous over `ℚ`; then period/length validation, SMA seeds over the
first `period` differences, and the Wilder recursion with
`alpha = 1/period`. -/
def rsi (prices : List ℚ) (period : Nat) : Except TAError (List F) :=
  if period = 0 then .error .invalidParameter
  else if prices.length ≤ period then .error (.insufficientData (period + 1) prices.length)
  else
    let alpha : ℚ := 1 / period
    let gl := gainsLosses prices
    let g0 : ℚ := ((gl.take period).map Prod.fst).sum / period
    let l0 : ℚ := ((gl.take period).map Prod.snd).sum / period
    .ok (List.replicate period none ++
      (rsiVal g0 l0 :: rsiScan alpha g0 l0 (gl.drop period)).map some)

/-! ## Parabolic SAR (`src/overlap/sar.rs`) -/

/-- The per-bar SAR automaton state: trend flag, current SAR, extreme
point, acceleration factor. -/
structure SarState where
  isLong : Bool
  sar : ℚ
  ep : ℚ
  af : ℚ
deriving DecidableEq, Repr

/-- `af = min(af + acceleration, max_acceleration)`, the acceleration
bump applied on every new extreme point. -/
def afBump (accel maxAccel af : ℚ) : ℚ := min (af + accel) maxAccel

/-- One iteration of the SAR loop body at bar `i` (taking
`high[i-1], low[i-1], high[i], low[i]`); returns the new state and
whether this bar was a trend reversal.  The extreme point is first
updated from the previous bar, then the tentative SAR is clamped,
then the reversal test runs. -/
def sarStep (accel maxAccel : ℚ) (hPrev lPrev hCur lCur : ℚ) (s : SarState) :
    SarState × Bool :=
  if s.isLong then
    let ep0 := if hPrev > s.ep then hPrev else s.ep
    let af0 := if hPrev > s.ep then afBump accel maxAccel s.af else s.af
    let sar0 := s.sar + af0 * (ep0 - s.sar)
    let sar1 := min (min sar0 lCur) lPrev
    if lCur ≤ sar1 then
      (⟨false, ep0, lCur, accel⟩, true)
    else if hCur > ep0 then
      (⟨true, sar1, hCur, afBump accel maxAccel af0⟩, false)
    else
      (⟨true, sar1, ep0, af0⟩, false)
  else
    let ep0 := if lPrev < s.ep then lPrev else s.ep
    let af0 := if lPrev < s.ep then afBump accel maxAccel s.af else s.af
    let sar0 := s.sar + af0 * (ep0 - s.sar)
    let sar1 := max (max sar0 hCur) hPrev
    if hCur ≥ sar1 then
      (⟨true, ep0, hCur, accel⟩, true)
    else if lCur < ep0 then
      (⟨false, sar1, lCur, afBump accel maxAccel af0⟩, false)
    else
      (⟨false, sar1, ep0, af0⟩, false)

/-- The initial SAR state from the first two bars. -/
def sarInit (accel : ℚ) (high low : List ℚ) : SarState :=
  if high.getD 1 0 > high.getD 0 0 then
    ⟨true, low.getD 0 0, high.getD 1 0, accel⟩
  else
    ⟨false, high.getD 0 0, low.getD 1 0, accel⟩

/-- The bar-quadruple inputs of the SAR loop:
`(high[i-1], low[i-1], high[i], low[i])` for `i = 2, …, len-1`. -/
def sarBars (high low : List ℚ) : List (ℚ × ℚ × ℚ × ℚ) :=
  ((List.range high.length).drop 2).map fun i =>
    (high.getD (i-1) 0, low.getD (i-1) 0, high.getD i 0, low.getD i 0)

/-- The SAR state trace: states (with reversal flags) after each bar
`i ≥ 2`. -/
def sarTraceAux (accel maxAccel : ℚ) (s : SarState) :
    List (ℚ × ℚ × ℚ × ℚ) → List (SarState × Bool)
  | [] => []
  | (hp, lp, hc, lc) :: rest =>
    let r := sarStep accel maxAccel hp lp hc lc s
    r :: sarTraceAux accel maxAccel r.1 rest

/-- The full SAR state trace of one call, starting from `sarInit`. -/
def sarTrace (high low : List ℚ) (accel maxAccel : ℚ) : List (SarState × Bool) :=
  sarTraceAux accel maxAccel (sarInit accel high low) (sarBars high low)

/-- `sar` (`src/overlap/sar.rs`): validations in source order, then
`result[0] = result[1] =` initial SAR and one value per later bar. -/
def sar (high low : List ℚ) (accel maxAccel : ℚ) : Except TAError (List F) :=
  if high.isEmpty ∨ low.isEmpty then .error .invalidInput
  else if high.length ≠ low.length then .error .mismatchedInputs
  else if accel ≤ 0 ∨ maxAccel ≤ 0 then .error .invalidParameter
  else if accel > maxAccel then .error .invalidInput
  else if high.length < 2 then .error .invalidInput
  else
    let s0 := sarInit accel high low
    .ok (some s0.sar :: some s0.sar ::
      (sarTrace high low accel maxAccel).map fun r => some r.1.sar)

/-! ## MAMA (`src/overlap/mama.rs`)

The state carries, for each lookback array of the source, the values
at indices `i-1, i-2, …` (newest first; absent positions are the
`0.0` the source initializes the arrays with), plus the scalar
recursion state.  `instP` is the oracle for `2π / atan2(im, re)` and
`phaseOr` the oracle for `atan2(q1, i1)`. -/

/-- MAMA per-bar state after processing bar `i`: `smooth`, `detr`,
`i1`, `q1` hold the values at `i, i-1, …` (newest first); the scalar
fields hold the index-`i` values of the corresponding source arrays. -/
structure MSt where
  smooth : List ℚ
  detr : List ℚ
  i1 : List ℚ
  q1 : List ℚ
  i2 : ℚ
  q2 : ℚ
  re : ℚ
  im : ℚ
  period : ℚ
  smoothPeriod : ℚ
  mamaVal : ℚ
  famaVal : ℚ
deriving DecidableEq, Repr

/-- The MAMA state before the first processed bar (`i = 6`): all
lookback arrays and scalars are the source's `0.0` initializers,
`mama = fama = close[0]`. -/
def mInit (c0 : ℚ) : MSt :=
  ⟨List.replicate 6 0, List.replicate 6 0, List.replicate 6 0, List.replicate 6 0,
    0, 0, 0, 0, 0, 0, c0, c0⟩

/-- The 4-tap Hilbert kernel of the source:
`(0.0962·x0 + 0.5769·x2 - 0.5769·x4 - 0.0962·x6) * k`. -/
def hilbert (k x0 x2 x4 x6 : ℚ) : ℚ :=
  (481/5000 * x0 + 5769/10000 * x2 - 5769/10000 * x4 - 481/5000 * x6) * k

/-- The period clamping of the source: at most `1.5×` up, at least
`0.67×` down versus the previous period, then bounded to `[6, 50]`. -/
def clampPeriod (prev raw : ℚ) : ℚ :=
  let p1 := if raw > 3/2 * prev then 3/2 * prev else raw
  let p2 := if p1 < 67/100 * prev then 67/100 * prev else p1
  let p3 := if p2 < 6 then 6 else p2
  if p3 > 50 then 50 else p3

/-- One iteration of the MAMA loop body at bar `i ≥ 6`.  `cm1 … cm3`
are `close[i-1] … close[i-3]`. -/
def mamaStep (instP phaseOr : ℚ → ℚ → ℚ) (fastLimit slowLimit : ℚ)
    (ci cm1 cm2 cm3 : ℚ) (s : MSt) : MSt :=
  let pp := s.period
  let k := 3/40 * pp + 27/50
  let sm := (4 * ci + 3 * cm1 + 2 * cm2 + cm3) / 10
  let dt := hilbert k sm (s.smooth.getD 1 0) (s.smooth.getD 3 0) (s.smooth.getD 5 0)
  let q1v := hilbert k dt (s.detr.getD 1 0) (s.detr.getD 3 0) (s.detr.getD 5 0)
  let i1v := s.detr.getD 2 0
  let jiv := hilbert k i1v (s.i1.getD 1 0) (s.i1.getD 3 0) (s.i1.getD 5 0)
  let jqv := hilbert k q1v (s.q1.getD 1 0) (s.q1.getD 3 0) (s.q1.getD 5 0)
  let i2v := 1/5 * (i1v - jqv) + 4/5 * s.i2
  let q2v := 1/5 * (q1v + jiv) + 4/5 * s.q2
  let rev := 1/5 * (i2v * s.i2 + q2v * s.q2) + 4/5 * s.re
  let imv := 1/5 * (i2v * s.q2 - q2v * s.i2) + 4/5 * s.im
  -- `period[i]` keeps its 0.0 initializer when the branch is not taken
  let raw := if imv ≠ 0 ∧ rev ≠ 0 then instP imv rev else 0
  let pNew := 1/5 * clampPeriod pp raw + 4/5 * pp
  let spNew := 33/100 * pNew + 67/100 * s.smoothPeriod
  let phase := if i1v ≠ 0 then phaseOr q1v i1v else 0
  let dp0 := phase - pp
  let dp := if dp0 < 1 then 1 else dp0
  let a0 := fastLimit / dp
  let alpha := if a0 < slowLimit then slowLimit else if a0 > fastLimit then fastLimit else a0
  let mamaNew := alpha * ci + (1 - alpha) * s.mamaVal
  let famaNew := 1/2 * alpha * mamaNew + (1 - 1/2 * alpha) * s.famaVal
  ⟨sm :: s.smooth, dt :: s.detr, i1v :: s.i1, q1v :: s.q1,
    i2v, q2v, rev, imv, pNew, spNew, mamaNew, famaNew⟩

/-- The MAMA state trace: the state after each bar `i = 6, …, len-1`. -/
def mamaTraceAux (instP phaseOr : ℚ → ℚ → ℚ) (fl sl : ℚ) (s : MSt) :
    List (ℚ × ℚ × ℚ × ℚ) → List MSt
  | [] => []
  | (ci, cm1, cm2, cm3) :: rest =>
    let s' := mamaStep instP phaseOr fl sl ci cm1 cm2 cm3 s
    s' :: mamaTraceAux instP phaseOr fl sl s' rest

/-- The close-quadruples `(close[i], close[i-1], close[i-2], close[i-3])`
for `i = 6, …, len-1`. -/
def mamaBars (close : List ℚ) : List (ℚ × ℚ × ℚ × ℚ) :=
  ((List.range close.length).drop 6).map fun i =>
    (close.getD i 0, close.getD (i-1) 0, close.getD (i-2) 0, close.getD (i-3) 0)

/-- The full MAMA state trace of one call. -/
def mamaTrace (instP phaseOr : ℚ → ℚ → ℚ) (close : List ℚ) (fl sl : ℚ) : List MSt :=
  mamaTraceAux instP phaseOr fl sl (mInit (close.getD 0 0)) (mamaBars close)

/-- The MAMA/FAMA output pair. -/
structure MamaResult where
  mama : List F
  fama : List F
deriving DecidableEq, Repr

/-- `mama` (`src/overlap/mama.rs`): validations in source order, then
NaN for the first 6 bars and the traced `mama`/`fama` values after. -/
def mama (instP phaseOr : ℚ → ℚ → ℚ) (close : List ℚ) (fastLimit slowLimit : ℚ) :
    Except TAError MamaResult :=
  if close.isEmpty then .error .invalidInput
  else if fastLimit ≤ 0 ∨ slowLimit ≤ 0 then .error .invalidParameter
  else if fastLimit ≤ slowLimit then .error .invalidInput
  else if fastLimit > 1 ∨ slowLimit > 1 then .error .invalidInput
  else if close.length < 32 then .error .invalidInput
  else
    let tr := mamaTrace instP phaseOr close fastLimit slowLimit
    .ok ⟨List.replicate 6 none ++ tr.map fun s => some s.mamaVal,
         List.replicate 6 none ++ tr.map fun s => some s.famaVal⟩

/-! ## The spec's DI formula, for the C3 refinement comparison.

Modelled from the spec: "`+DI = 100 · WilderSmooth(+DM) /
WilderSmooth(TrueRange)` ...; when the smoothed True Range is ~0, DI is
defined as 0 to avoid division blow-up." -/

/-- Modelled from the spec: `+DI` computed from the *Wilder-smoothed*
`+DM` stream and the Wilder-smoothed True Range. -/
def plusDISpec (high low close : List ℚ) (period : Nat) : List F :=
  let sdm := wilderSmoothSpec ((List.range high.length).map fun i =>
    if i = 0 then none
    else some (plusDMCell (high.getD (i-1) 0) (low.getD (i-1) 0) (high.getD i 0) (low.getD i 0)))
    period
  let str := wilderSmoothSpec ((trangeList high low close).map some) period
  (List.range close.length).map fun i =>
    if flt (fabs (str.getD i none)) (some eps) then some 0
    else fdiv (fmul (some 100) (sdm.getD i none)) (str.getD i none)

instance {e a : Type} [DecidableEq e] [DecidableEq a] : DecidableEq (Except e a)
  | .error x, .error y =>
    if h : x = y then .isTrue (by rw [h]) else .isFalse (by intro hc; cases hc; exact h rfl)
  | .error _, .ok _ => .isFalse (by intro hc; cases hc)
  | .ok _, .error _ => .isFalse (by intro hc; cases hc)
  | .ok x, .ok y =>
    if h : x = y then .isTrue (by rw [h]) else .isFalse (by intro hc; cases hc; exact h rfl)

/-! ## Proof development -/

@[simp] theorem fadd_none (a : F) : fadd a none = none := by cases a <;> rfl

@[simp] theorem fadd_none_left (a : F) : fadd none a = none := rfl

@[simp] theorem fmul_none (a : F) : fmul a none = none := by cases a <;> rfl

@[simp] theorem fmul_none_left (a : F) : fmul none a = none := rfl

@[simp] theorem fsub_none (a : F) : fsub a none = none := by cases a <;> rfl

@[simp] theorem fsub_none_left (a : F) : fsub none a = none := rfl

@[simp] theorem fdiv_none (a : F) : fdiv a none = none := by cases a <;> rfl

@[simp] theorem fabs_none : fabs none = none := rfl

@[simp] theorem flt_none_left (b : F) : flt none b = false := rfl

@[simp] theorem fadd_some (a b : ℚ) : fadd (some a) (some b) = some (a + b) := rfl

@[simp] theorem fmul_some (a b : ℚ) : fmul (some a) (some b) = some (a * b) := rfl

@[simp] theorem fsub_some (a b : ℚ) : fsub (some a) (some b) = some (a - b) := rfl

@[simp] theorem fdiv_some (a b : ℚ) : fdiv (some a) (some b) = some (a / b) := rfl

@[simp] theorem fabs_some (a : ℚ) : fabs (some a) = some |a| := rfl

@[simp] theorem flt_some (a b : ℚ) : flt (some a) (some b) = decide (a < b) := rfl

theorem foldl_fadd_none (xs : List F) : xs.foldl fadd none = none := by
  induction xs with
  | nil => rfl
  | cons x t ih => simp only [List.foldl_cons, fadd_none_left]; exact ih

theorem fsum_of_mem_none {xs : List F} (h : none ∈ xs) : fsum xs = none := by
  suffices key : ∀ (a : F), xs.foldl fadd a = none from key _
  induction xs with
  | nil => cases h
  | cons x t ih =>
    intro a
    rcases List.mem_cons.1 h with hx | ht
    · subst hx
      simp only [List.foldl_cons, fadd_none]
      exact foldl_fadd_none t
    · simp only [List.foldl_cons]
      exact ih ht (fadd a x)

/-- `fsum` over a list of defined cells. -/
theorem fsum_map_some (xs : List ℚ) : fsum (xs.map some) = some xs.sum := by
  have : ∀ (a : ℚ), (xs.map some).foldl fadd (some a) = some (a + xs.sum) := by
    induction xs with
    | nil => intro a; simp [fsum]
    | cons x t ih =>
      intro a
      simp only [List.map_cons, List.foldl_cons, fadd_some]
      rw [ih]
      simp only [List.sum_cons]
      congr 1
      ring
  simpa [fsum] using this 0

/-! ## Helper lemmas about the smoothing scans -/

theorem emaScan_length (m : ℚ) (prev : F) (l : List F) :
    (emaScan m prev l).length = l.length := by
  induction l generalizing prev with
  | nil => rfl
  | cons x xs ih => simp [emaScan, ih]

theorem wilderScan_length (a : ℚ) (prev : F) (l : List F) :
    (wilderScan a prev l).length = l.length := by
  induction l generalizing prev with
  | nil => rfl
  | cons x xs ih => simp [wilderScan, ih]

theorem atrScan_length (a prev : ℚ) (l : List ℚ) :
    (atrScan a prev l).length = l.length := by
  induction l generalizing prev with
  | nil => rfl
  | cons x xs ih => simp [atrScan, ih]

theorem emaScan_none (m : ℚ) (l : List F) :
    emaScan m none l = List.replicate l.length none := by
  induction l with
  | nil => rfl
  | cons x xs ih => simp [emaScan, ih, List.replicate_succ]

theorem wilderScan_none (a : ℚ) (l : List F) :
    wilderScan a none l = List.replicate l.length none := by
  induction l with
  | nil => rfl
  | cons x xs ih => simp [wilderScan, ih, List.replicate_succ]

theorem getD_replicate_none (n i : Nat) :
    (List.replicate n (none : F)).getD i none = none := by
  rcases lt_or_le i n with h | h
  · rw [List.getD_eq_getElem _ _ (by simpa using h)]
    simp
  · rw [List.getD_eq_default _ _ (by simpa using h)]

@[simp] theorem fdiv_none_left' (a : F) : fdiv none a = none := by cases a <;> rfl

theorem take_head_mem_none {data : List F} {p : Nat} (hp : 1 ≤ p)
    (hlen : p ≤ data.length) (h0 : data.getD 0 none = none) :
    none ∈ data.take p := by
  rcases data with _ | ⟨x, xs⟩
  · simp at hlen; omega
  · have hx : x = none := by simpa using h0
    cases p with
    | zero => omega
    | succ q =>
      rw [List.take_succ_cons, hx]
      exact List.mem_cons_self _ _

/-- If the head of the data is NaN and `1 ≤ period ≤ len`, the whole
EMA output is NaN: the SMA seed sums a NaN and the recursion
propagates it. -/
theorem emaCore_all_none {data : List F} {p : Nat} (hp : 1 ≤ p)
    (hlen : p ≤ data.length) (h0 : data.getD 0 none = none) :
    emaCore data p = List.replicate data.length none := by
  have hmem : none ∈ data.take p := take_head_mem_none hp hlen h0
  have hseed : fsum (data.take p) = none := fsum_of_mem_none hmem
  unfold emaCore
  rw [hseed]
  simp only [fdiv_none_left', emaScan_none]
  rw [← List.replicate_succ, ← List.replicate_add]
  congr 1
  have := data.length_drop p
  omega

/-- Same propagation for the spec's Wilder smoothing. -/
theorem wilderSmoothSpec_all_none {data : List F} {p : Nat} (hp : 1 ≤ p)
    (hlen : p ≤ data.length) (h0 : data.getD 0 none = none) :
    wilderSmoothSpec data p = List.replicate data.length none := by
  have hmem : none ∈ data.take p := take_head_mem_none hp hlen h0
  have hseed : fsum (data.take p) = none := fsum_of_mem_none hmem
  unfold wilderSmoothSpec
  rw [hseed]
  simp only [fdiv_none_left', wilderScan_none]
  rw [← List.replicate_succ, ← List.replicate_add]
  congr 1
  have := data.length_drop p
  omega

/-- The defining recurrence of the EMA scan, read off the produced
list: entry `j` is `m * x[j] + (1-m) * (previous entry)`. -/
theorem emaScan_getD_succ (m : ℚ) (prev : F) (l : List F) (j : Nat) (hj : j < l.length) :
    (emaScan m prev l).getD j none =
      fadd (fmul (l.getD j none) (some m))
        (fmul ((prev :: emaScan m prev l).getD j none) (some (1 - m))) := by
  induction l generalizing prev j with
  | nil => simp at hj
  | cons x xs ih =>
    cases j with
    | zero => simp [emaScan]
    | succ j =>
      have hj' : j < xs.length := by simpa using hj
      simpa [emaScan] using ih _ j hj'

theorem emaCore_length {data : List F} {p : Nat} (hp : 1 ≤ p) (hlen : p ≤ data.length) :
    (emaCore data p).length = data.length := by
  unfold emaCore
  simp only [List.length_append, List.length_replicate, List.length_cons, emaScan_length,
    List.length_drop]
  omega

theorem emaCore_getD_sentinel {data : List F} {p i : Nat} (hi : i + 1 < p) :
    (emaCore data p).getD i none = none := by
  unfold emaCore
  rw [List.getD_append _ _ _ _ (by simp; omega)]
  exact getD_replicate_none _ _

theorem emaCore_getD_seed {data : List F} {p : Nat} :
    (emaCore data p).getD (p - 1) none = fdiv (fsum (data.take p)) (some p) := by
  unfold emaCore
  rw [List.getD_append_right _ _ _ _ (by simp)]
  simp

theorem emaCore_getD_rec {data : List F} {p i : Nat} (hp : 1 ≤ p) (hi : p ≤ i)
    (hl : i < data.length) :
    (emaCore data p).getD i none =
      fadd (fmul (data.getD i none) (some (2 / (p + 1))))
        (fmul ((emaCore data p).getD (i - 1) none) (some (1 - 2 / (p + 1)))) := by
  have hdrop : i - p < (data.drop p).length := by simp; omega
  have h1 : (emaCore data p).getD i none
      = (emaScan (2 / (p+1)) (fdiv (fsum (data.take p)) (some p)) (data.drop p)).getD (i - p) none := by
    unfold emaCore
    rw [List.getD_append_right _ _ _ _ (by simp; omega)]
    simp only [List.length_replicate]
    have : i - (p - 1) = (i - p) + 1 := by omega
    rw [this, List.getD_cons_succ]
  have h2 : (emaCore data p).getD (i - 1) none
      = ((fdiv (fsum (data.take p)) (some p)) ::
          emaScan (2 / (p+1)) (fdiv (fsum (data.take p)) (some p)) (data.drop p)).getD (i - p) none := by
    unfold emaCore
    rw [List.getD_append_right _ _ _ _ (by simp; omega)]
    simp only [List.length_replicate]
    have : i - 1 - (p - 1) = i - p := by omega
    rw [this]
  have h3 : (data.drop p).getD (i - p) none = data.getD i none := by
    rw [List.getD_eq_getElem _ _ hdrop, List.getD_eq_getElem _ _ (by simpa using hl)]
    rw [List.getElem_drop]
    congr 1
    omega
  rw [h1, emaScan_getD_succ _ _ _ _ hdrop, h3, ← h2]

theorem getD_map_some {xs : List ℚ} {i : Nat} (hi : i < xs.length) :
    (xs.map some).getD i none = some (xs.getD i 0) := by
  rw [List.getD_eq_getElem _ _ (by simpa using hi), List.getD_eq_getElem _ _ hi]
  simp

/-- C10: for every non-empty series `x` with `length ≥ period ≥ 1`,
`ema(x, period)` succeeds and returns `y` with `y[period-1]` the
arithmetic mean of `x[0..period]`, `y[i] = α·x[i] + (1-α)·y[i-1]` for
`i ≥ period` with `α = 2/(period+1)`, and the NaN sentinel before
index `period-1`; `period == 0` fails with `InvalidParameter` and
`length < period` fails with `InsufficientData`. -/
theorem C10_ema_contract (xs : List ℚ) (p : Nat) (out : List F) (hne : xs ≠ []) :
    (ema (xs.map some) p = .ok out →
      out.length = xs.length ∧
      (∀ i, i + 1 < p → out.getD i none = none) ∧
      out.getD (p - 1) none = some ((xs.take p).sum / p) ∧
      (∀ i, p ≤ i → i < xs.length →
        out.getD i none =
          fadd (fmul (some (xs.getD i 0)) (some (2 / (p + 1))))
            (fmul (out.getD (i - 1) none) (some (1 - 2 / (p + 1)))))) ∧
    (p = 0 → ema (xs.map some) p = .error .invalidParameter) ∧
    (1 ≤ p → xs.length < p → ema (xs.map some) p = .error (.insufficientData p xs.length)) ∧
    (1 ≤ p → p ≤ xs.length → ema (xs.map some) p = .ok (emaCore (xs.map some) p)) := by
  have hemp : (xs.map some).isEmpty = false := by
    simpa [List.isEmpty_iff] using hne
  have hlenm : (xs.map some).length = xs.length := xs.length_map some
  refine ⟨?_, ?_, ?_, ?_⟩
  · intro hok
    unfold ema at hok
    rw [if_neg (by simp [hemp])] at hok
    by_cases hp0 : p = 0
    · rw [if_pos hp0] at hok; simp at hok
    rw [if_neg hp0] at hok
    by_cases hlp : (xs.map some).length < p
    · rw [if_pos hlp] at hok; simp at hok
    rw [if_neg hlp] at hok
    have hp : 1 ≤ p := Nat.one_le_iff_ne_zero.2 hp0
    have hpl : p ≤ xs.length := by omega
    have hout : out = emaCore (xs.map some) p := (Except.ok.inj hok).symm
    subst hout
    refine ⟨by rw [emaCore_length hp (by omega)]; exact hlenm, ?_, ?_, ?_⟩
    · intro i hi; exact emaCore_getD_sentinel hi
    · rw [emaCore_getD_seed, ← List.map_take, fsum_map_some]
      simp
    · intro i hpi hil
      rw [emaCore_getD_rec hp hpi (by omega), getD_map_some hil]
  · intro hp0
    subst hp0
    unfold ema
    rw [if_neg (by simp [hemp]), if_pos rfl]
  · intro hp hlt
    unfold ema
    rw [if_neg (by simp [hemp]), if_neg (by omega), if_pos (by omega), hlenm]
  · intro hp hlen
    unfold ema
    rw [if_neg (by simp [hemp]), if_neg (by omega), if_neg (by omega)]

/-- Witness for C10 at `x = [1,2,3]`, `period = 2`: the call succeeds
and the seed entry is the mean of the first two samples. -/
theorem C10_ema_contract_witness :
    ema (([1, 2, 3] : List ℚ).map some) 2 = .ok [none, some (3/2), some (5/2)] ∧
    ([none, some (3/2), some (5/2)] : List F).getD (2 - 1) none
      = some (((([1, 2, 3] : List ℚ).take 2).sum) / 2) := by
  have h := C10_ema_contract [1, 2, 3] 2 [none, some (3/2), some (5/2)] (by decide)
  have hok : ema (([1, 2, 3] : List ℚ).map some) 2 = .ok [none, some (3/2), some (5/2)] := by
    rw [(h.2.2.2 (by norm_num) (by norm_num))]
    simp [emaCore, emaScan, fsum]
    norm_num
  exact ⟨hok, ((h.1 hok).2.2.1)⟩

/-! ## Destructuring the directional-movement pipeline -/

theorem excBind_ok {e a b : Type} {x : Except e a} {f : a → Except e b} {out : b}
    (h : (x >>= f) = .ok out) : ∃ v, x = .ok v ∧ f v = .ok out := by
  cases x with
  | error err => simp [Bind.bind, Except.bind] at h
  | ok v => exact ⟨v, rfl, by simpa [Bind.bind, Except.bind] using h⟩

theorem getD_range_map {A : Type} (f : Nat → A) {n i : Nat} (d : A) (hi : i < n) :
    ((List.range n).map f).getD i d = f i := by
  rw [List.getD_eq_getElem _ _ (by simpa using hi)]
  simp

theorem ema_ok_elim {data : List F} {p : Nat} {out : List F}
    (hok : ema data p = .ok out) :
    out = emaCore data p ∧ 1 ≤ p ∧ p ≤ data.length ∧ data ≠ [] := by
  unfold ema at hok
  by_cases hb : data.isEmpty = true
  · rw [if_pos hb] at hok; simp at hok
  rw [if_neg hb] at hok
  by_cases hp0 : p = 0
  · rw [if_pos hp0] at hok; simp at hok
  rw [if_neg hp0] at hok
  by_cases hlp : data.length < p
  · rw [if_pos hlp] at hok; simp at hok
  rw [if_neg hlp] at hok
  exact ⟨(Except.ok.inj hok).symm, by omega, by omega, by simpa [List.isEmpty_iff] using hb⟩

theorem atr_ok_elim {high low close : List ℚ} {p : Nat} {out : List F}
    (hok : atr high low close p = .ok out) :
    ∃ tr, trange high low close = .ok tr ∧ out = atrCore tr p ∧
      1 ≤ p ∧ p ≤ high.length ∧ high.length = low.length ∧ high.length = close.length ∧
      high ≠ [] := by
  unfold atr at hok
  by_cases h1 : (high.isEmpty ∨ low.isEmpty ∨ close.isEmpty)
  · rw [if_pos h1] at hok; simp at hok
  rw [if_neg h1] at hok
  by_cases h2 : (high.length ≠ low.length ∨ high.length ≠ close.length)
  · rw [if_pos h2] at hok; simp at hok
  rw [if_neg h2] at hok
  by_cases h3 : p = 0
  · rw [if_pos h3] at hok; simp at hok
  rw [if_neg h3] at hok
  by_cases h4 : high.length < p
  · rw [if_pos h4] at hok; simp at hok
  rw [if_neg h4] at hok
  push_neg at h1 h2
  obtain ⟨tr, htr, hrest⟩ := excBind_ok hok
  exact ⟨tr, htr, (Except.ok.inj hrest).symm, by omega, by omega, h2.1, h2.2,
    by simpa [List.isEmpty_iff] using h1.1⟩

theorem plus_di_ok_elim {high low close : List ℚ} {p : Nat} {out : List F}
    (hok : plus_di high low close p = .ok out) :
    ∃ pdm a, plus_dm high low = .ok pdm ∧ atr high low close p = .ok a ∧
      out = (List.range close.length).map
        (fun i => diCell (pdm.getD i none) (a.getD i none)) := by
  unfold plus_di at hok
  by_cases hc : (high.length ≠ close.length ∨ low.length ≠ close.length)
  · rw [if_pos hc] at hok; simp at hok
  rw [if_neg hc] at hok
  obtain ⟨pdm, hpdm, h2⟩ := excBind_ok hok
  obtain ⟨a, ha, h3⟩ := excBind_ok h2
  exact ⟨pdm, a, hpdm, ha, (Except.ok.inj h3).symm⟩

theorem minus_di_ok_elim {high low close : List ℚ} {p : Nat} {out : List F}
    (hok : minus_di high low close p = .ok out) :
    ∃ mdm a, minus_dm high low = .ok mdm ∧ atr high low close p = .ok a ∧
      out = (List.range close.length).map
        (fun i => diCell (mdm.getD i none) (a.getD i none)) := by
  unfold minus_di at hok
  by_cases hc : (high.length ≠ close.length ∨ low.length ≠ close.length)
  · rw [if_pos hc] at hok; simp at hok
  rw [if_neg hc] at hok
  obtain ⟨mdm, hmdm, h2⟩ := excBind_ok hok
  obtain ⟨a, ha, h3⟩ := excBind_ok h2
  exact ⟨mdm, a, hmdm, ha, (Except.ok.inj h3).symm⟩

theorem dx_ok_elim {high low close : List ℚ} {p : Nat} {out : List F}
    (hok : dx high low close p = .ok out) :
    ∃ pdi mdi, plus_di high low close p = .ok pdi ∧ minus_di high low close p = .ok mdi ∧
      out = (List.range close.length).map
        (fun i => dxCell (pdi.getD i none) (mdi.getD i none)) ∧
      high.length = close.length ∧ low.length = close.length := by
  unfold dx at hok
  by_cases hc : (high.length ≠ close.length ∨ low.length ≠ close.length)
  · rw [if_pos hc] at hok; simp at hok
  rw [if_neg hc] at hok
  push_neg at hc
  obtain ⟨pdi, hpdi, h2⟩ := excBind_ok hok
  obtain ⟨mdi, hmdi, h3⟩ := excBind_ok h2
  exact ⟨pdi, mdi, hpdi, hmdi, (Except.ok.inj h3).symm, hc.1, hc.2⟩

theorem adx_ok_elim {high low close : List ℚ} {p : Nat} {out : List F}
    (hok : adx high low close p = .ok out) :
    ∃ dxv, dx high low close p = .ok dxv ∧ ema dxv p = .ok out := by
  unfold adx at hok
  obtain ⟨dxv, hdx, h2⟩ := excBind_ok hok
  obtain ⟨adxv, hadx, h3⟩ := excBind_ok h2
  exact ⟨dxv, hdx, by rwa [(Except.ok.inj h3)] at hadx⟩

/-- With `period ≥ 2` the warm-up prefix of `atr` starts with NaN. -/
theorem atrCore_getD_zero {tr : List ℚ} {p : Nat} (hp : 2 ≤ p) :
    (atrCore tr p).getD 0 none = none := by
  unfold atrCore
  rw [List.getD_append _ _ _ _ (by simp; omega)]
  exact getD_replicate_none _ _

@[simp] theorem diCell_atr_none (dm : F) : diCell dm none = none := by
  simp [diCell, flt, fabs]

@[simp] theorem dxCell_none_none : dxCell none none = none := by
  simp [dxCell, flt, fabs]

theorem fmul_comm (a b : F) : fmul a b = fmul b a := by
  cases a <;> cases b <;> simp [fmul, mul_comm]

theorem emaScan_one_eq_wilderScan (l : List F) :
    ∀ prev, emaScan 1 prev l = wilderScan 1 prev l := by
  induction l with
  | nil => intro prev; rfl
  | cons x xs ih =>
    intro prev
    simp only [emaScan, wilderScan]
    rw [fmul_comm x (some 1), fmul_comm prev (some (1 - 1)), ih]

/-- At `period = 1` the EMA coefficient `2/(p+1)` and the Wilder
coefficient `1/p` are both `1`, so the two recursions coincide. -/
theorem emaCore_one_eq_wilderSpec (data : List F) :
    emaCore data 1 = wilderSmoothSpec data 1 := by
  have hm : (2 / (((1:ℕ) : ℚ) + 1)) = (1 : ℚ) := by norm_num
  have ha : (1 / ((1:ℕ) : ℚ)) = (1 : ℚ) := by norm_num
  simp only [emaCore, wilderSmoothSpec]
  rw [hm, ha, emaScan_one_eq_wilderScan]

/-- With `period ≥ 2`, `dx` starts with NaN: both DI series inherit
the NaN of ATR's warm-up prefix at index 0. -/
theorem dx_head_none {high low close : List ℚ} {p : Nat} {dxv : List F}
    (hp : 2 ≤ p) (hok : dx high low close p = .ok dxv) :
    dxv.getD 0 none = none := by
  obtain ⟨pdi, mdi, hpdi, hmdi, hout, hhc, hlc⟩ := dx_ok_elim hok
  obtain ⟨pdm, a, _, ha, hpout⟩ := plus_di_ok_elim hpdi
  obtain ⟨mdm, a2, _, ha2, hmout⟩ := minus_di_ok_elim hmdi
  obtain ⟨tr, _, haout, _, _, _, _, hne⟩ := atr_ok_elim ha
  obtain ⟨tr2, _, haout2, _, _, _, _, _⟩ := atr_ok_elim ha2
  have hpos : 0 < close.length := by
    have : 0 < high.length := List.length_pos.2 hne
    omega
  have ha0 : a.getD 0 none = none := by rw [haout]; exact atrCore_getD_zero hp
  have ha20 : a2.getD 0 none = none := by rw [haout2]; exact atrCore_getD_zero hp
  have hpd0 : pdi.getD 0 none = none := by
    rw [hpout, getD_range_map _ _ hpos, ha0]; exact diCell_atr_none _
  have hmd0 : mdi.getD 0 none = none := by
    rw [hmout, getD_range_map _ _ hpos, ha20]; exact diCell_atr_none _
  rw [hout, getD_range_map _ _ hpos, hpd0, hmd0]
  exact dxCell_none_none

/-- C1: whenever `adx(high, low, close, period)` succeeds, its output
equals Wilder's smoothing — exponential recursion with coefficient
`α = 1/period`, seeded with the arithmetic mean of the first `period`
DX values, sentinel before the seed index — applied to the DX series.
(For `period ≥ 2` both series are entirely NaN because `DX[0]` is NaN
and it poisons the seed; for `period = 1` the two coefficients agree.) -/
theorem C1_adx_eq_wilder_of_dx (high low close : List ℚ) (p : Nat) (out : List F)
    (hok : adx high low close p = .ok out) :
    ∃ dxv, dx high low close p = .ok dxv ∧ out = wilderSmoothSpec dxv p := by
  obtain ⟨dxv, hdx, hema⟩ := adx_ok_elim hok
  refine ⟨dxv, hdx, ?_⟩
  obtain ⟨hout, hp1, hple, hne⟩ := ema_ok_elim hema
  rcases Nat.lt_or_ge p 2 with hp | hp
  · have hp1' : p = 1 := by omega
    subst hp1'
    rw [hout]
    exact emaCore_one_eq_wilderSpec dxv
  · have hhead := dx_head_none hp hdx
    rw [hout, emaCore_all_none hp1 hple hhead, wilderSmoothSpec_all_none hp1 hple hhead]

/-- C2: for `period ≥ 2`, every entry of a successful `adx` output is
NaN — `DX[0]` is NaN because ATR's warm-up prefix poisons both DI
values there, the EMA seed averages it in, and NaN propagates through
the recursion — and consequently every `adxr` entry is NaN too. -/
theorem C2_adx_all_nan (high low close : List ℚ) (p : Nat) (out : List F)
    (hp : 2 ≤ p) (hok : adx high low close p = .ok out) :
    out = List.replicate close.length none ∧
    (∀ out', adxr high low close p = .ok out' →
      out' = List.replicate close.length none) := by
  obtain ⟨dxv, hdx, hema⟩ := adx_ok_elim hok
  have hdxlen : dxv.length = close.length := by
    obtain ⟨pdi, mdi, _, _, hout, _, _⟩ := dx_ok_elim hdx
    subst hout; simp
  obtain ⟨hout, hp1, hple, hne⟩ := ema_ok_elim hema
  have hmain : out = List.replicate close.length none := by
    rw [hout, emaCore_all_none hp1 hple (dx_head_none hp hdx), hdxlen]
  refine ⟨hmain, ?_⟩
  intro out' hok'
  unfold adxr at hok'
  obtain ⟨adxv, hadx, h3⟩ := excBind_ok hok'
  rw [hok] at hadx
  have hadxv : adxv = out := (Except.ok.inj hadx).symm
  rw [hadxv] at h3
  have hout' : out' = (List.range out.length).map fun i =>
      if i < p then none
      else fdiv (fadd (out.getD i none) (out.getD (i - p) none)) (some 2) :=
    (Except.ok.inj h3).symm
  have hlen : out.length = close.length := by rw [hmain]; simp
  rw [hout', hlen]
  refine List.eq_replicate_iff.2 ⟨by simp, ?_⟩
  intro b hb
  obtain ⟨i, hi, hfb⟩ := List.mem_map.1 hb
  rw [← hfb]
  by_cases hip : i < p
  · rw [if_pos hip]
  · rw [if_neg hip, hmain, getD_replicate_none, getD_replicate_none]
    simp

/-- Concrete evaluations shared by several witnesses:
`high=[2,3], low=[1,2], close=[2,3], period=1`. -/
theorem atr_eval_p1 : atr [2, 3] [1, 2] [2, 3] 1 = .ok [some 1, some 1] := by
  have htr : trange [2, 3] [1, 2] [2, 3] = .ok [1, 1] := by
    norm_num [trange, trangeList, hlcOk, hlcRowOk, List.range_succ]
  norm_num [atr, htr, Bind.bind, Except.bind, atrCore, atrScan]

theorem plus_di_eval_p1 : plus_di [2, 3] [1, 2] [2, 3] 1 = .ok [none, some 100] := by
  have hpdm : plus_dm [2, 3] [1, 2] = .ok [none, some 1] := by
    norm_num [plus_dm, plusDMCell, List.range_succ]
  norm_num [plus_di, hpdm, atr_eval_p1, Bind.bind, Except.bind, diCell, eps, flt, fabs,
    fdiv, fmul, List.range_succ]

theorem minus_di_eval_p1 : minus_di [2, 3] [1, 2] [2, 3] 1 = .ok [none, some 0] := by
  have hmdm : minus_dm [2, 3] [1, 2] = .ok [none, some 0] := by
    norm_num [minus_dm, minusDMCell, List.range_succ]
  norm_num [minus_di, hmdm, atr_eval_p1, Bind.bind, Except.bind, diCell, eps, flt, fabs,
    fdiv, fmul, List.range_succ]

theorem dx_eval_p1 : dx [2, 3] [1, 2] [2, 3] 1 = .ok [none, some 100] := by
  simp only [dx, plus_di_eval_p1, minus_di_eval_p1, Bind.bind, Except.bind]
  norm_num [List.range_succ]
  norm_num [dxCell, eps, flt, fabs, fsub, fadd, fmul, fdiv]

theorem adx_eval_p1 : adx [2, 3] [1, 2] [2, 3] 1 = .ok [none, none] := by
  have hema : ema [none, some 100] 1 = .ok [none, none] := by
    norm_num [ema, emaCore, emaScan, fsum, fadd, fmul, fdiv]
  norm_num [adx, dx_eval_p1, hema, Bind.bind, Except.bind]

/-- Witness for C1 at a concrete successful call with `period = 1`. -/
theorem C1_adx_eq_wilder_of_dx_witness :
    ∃ dxv, dx [2, 3] [1, 2] [2, 3] 1 = .ok dxv ∧
      ([none, none] : List F) = wilderSmoothSpec dxv 1 :=
  C1_adx_eq_wilder_of_dx [2, 3] [1, 2] [2, 3] 1 [none, none] adx_eval_p1

/-- Concrete evaluation used by the C2 witness: `adx` at
`high=[2,3,4], low=[1,2,3], close=[2,3,4], period=2`. -/
theorem adx_eval_p2 : adx [2, 3, 4] [1, 2, 3] [2, 3, 4] 2 = .ok [none, none, none] := by
  have htr : trange [2, 3, 4] [1, 2, 3] [2, 3, 4] = .ok [1, 1, 1] := by
    norm_num [trange, trangeList, hlcOk, hlcRowOk, List.range_succ]
  have hatr : atr [2, 3, 4] [1, 2, 3] [2, 3, 4] 2 = .ok [none, some 1, some 1] := by
    norm_num [atr, htr, Bind.bind, Except.bind, atrCore, atrScan]
  have hpdm : plus_dm [2, 3, 4] [1, 2, 3] = .ok [none, some 1, some 1] := by
    norm_num [plus_dm, plusDMCell, List.range_succ]
  have hmdm : minus_dm [2, 3, 4] [1, 2, 3] = .ok [none, some 0, some 0] := by
    norm_num [minus_dm, minusDMCell, List.range_succ]
  have hpdi : plus_di [2, 3, 4] [1, 2, 3] [2, 3, 4] 2 = .ok [none, some 100, some 100] := by
    norm_num [plus_di, hpdm, hatr, Bind.bind, Except.bind, diCell, eps, flt, fabs, fdiv,
      fmul, List.range_succ]
  have hmdi : minus_di [2, 3, 4] [1, 2, 3] [2, 3, 4] 2 = .ok [none, some 0, some 0] := by
    norm_num [minus_di, hmdm, hatr, Bind.bind, Except.bind, diCell, eps, flt, fabs, fdiv,
      fmul, List.range_succ]
  have hdx : dx [2, 3, 4] [1, 2, 3] [2, 3, 4] 2 = .ok [none, some 100, some 100] := by
    simp only [dx, hpdi, hmdi, Bind.bind, Except.bind]
    norm_num [List.range_succ]
    norm_num [dxCell, eps, flt, fabs, fsub, fadd, fmul, fdiv]
  have hema : ema [none, some 100, some 100] 2 = .ok [none, none, none] := by
    norm_num [ema, emaCore, emaScan, fsum, fadd, fmul, fdiv]
  norm_num [adx, hdx, hema, Bind.bind, Except.bind]

/-- Witness for C2 at a concrete successful call with `period = 2`. -/
theorem C2_adx_all_nan_witness :
    ([none, none, none] : List F) = List.replicate ([2, 3, 4] : List ℚ).length none ∧
    (∀ out', adxr [2, 3, 4] [1, 2, 3] [2, 3, 4] 2 = .ok out' →
      out' = List.replicate ([2, 3, 4] : List ℚ).length none) :=
  C2_adx_all_nan [2, 3, 4] [1, 2, 3] [2, 3, 4] 2 [none, none, none] (by norm_num) adx_eval_p2

theorem wilderScan_map_some (a prev : ℚ) (l : List ℚ) :
    wilderScan a (some prev) (l.map some) = (atrScan a prev l).map some := by
  induction l generalizing prev with
  | nil => rfl
  | cons t ts ih => simp [wilderScan, atrScan, ih]

/-- The smoothing performed by `atr` is exactly the spec's Wilder
smoothing of the True Range series. -/
theorem atrCore_eq_wilderSpec (tr : List ℚ) (p : Nat) :
    atrCore tr p = wilderSmoothSpec (tr.map some) p := by
  unfold atrCore wilderSmoothSpec
  rw [← List.map_take, ← List.map_drop, fsum_map_some]
  simp only [fdiv_some, List.map_cons, wilderScan_map_some]

/-- C3 (amended): a defined `plus_di`/`minus_di` cell divides the
*raw* `±DM` value by the Wilder-smoothed True Range (the `atr`
output, which equals `WilderSmooth(TrueRange)`), with a zero
substitute when the smoothed True Range is below `1e-12`; the `±DM`
stream itself is *not* Wilder-smoothed before the division. -/
theorem C3_di_uses_raw_dm (high low close : List ℚ) (p : Nat) (outP outM : List F)
    (hP : plus_di high low close p = .ok outP)
    (hM : minus_di high low close p = .ok outM) :
    ∃ pdm mdm a tr, plus_dm high low = .ok pdm ∧ minus_dm high low = .ok mdm ∧
      trange high low close = .ok tr ∧ atr high low close p = .ok a ∧
      a = wilderSmoothSpec (tr.map some) p ∧
      (∀ i, i < close.length →
        outP.getD i none =
          (if flt (fabs (a.getD i none)) (some eps) then some 0
           else fdiv (fmul (some 100) (pdm.getD i none)) (a.getD i none))) ∧
      (∀ i, i < close.length →
        outM.getD i none =
          (if flt (fabs (a.getD i none)) (some eps) then some 0
           else fdiv (fmul (some 100) (mdm.getD i none)) (a.getD i none))) := by
  obtain ⟨pdm, a, hpdm, ha, hPout⟩ := plus_di_ok_elim hP
  obtain ⟨mdm, a2, hmdm, ha2, hMout⟩ := minus_di_ok_elim hM
  have ha2a : a = a2 := by rw [ha] at ha2; exact Except.ok.inj ha2
  subst ha2a
  obtain ⟨tr, htr, haout, _, _, _, _, _⟩ := atr_ok_elim ha
  refine ⟨pdm, mdm, a, tr, hpdm, hmdm, htr, ha, ?_, ?_, ?_⟩
  · rw [haout]; exact atrCore_eq_wilderSpec tr p
  · intro i hi
    rw [hPout, getD_range_map _ _ hi]
    rfl
  · intro i hi
    rw [hMout, getD_range_map _ _ hi]
    rfl

/-- Concrete DI evaluations used by the C3 counterexample and witness:
`high=[2,4,6], low=[1,3,5], close=[3/2,7/2,11/2], period=2`. -/
theorem plus_di_eval_c3 :
    plus_di [2, 4, 6] [1, 3, 5] [3/2, 7/2, 11/2] 2
      = .ok [none, some (800/7), some (1600/17)] := by
  have htr : trange [2, 4, 6] [1, 3, 5] [3/2, 7/2, 11/2] = .ok [1, 5/2, 5/2] := by
    norm_num [trange, trangeList, hlcOk, hlcRowOk, List.range_succ, max_def, abs]
  have hatr : atr [2, 4, 6] [1, 3, 5] [3/2, 7/2, 11/2] 2
      = .ok [none, some (7/4), some (17/8)] := by
    norm_num [atr, htr, Bind.bind, Except.bind, atrCore, atrScan]
  have hpdm : plus_dm [2, 4, 6] [1, 3, 5] = .ok [none, some 2, some 2] := by
    norm_num [plus_dm, plusDMCell, List.range_succ]
  simp only [plus_di, hpdm, hatr, Bind.bind, Except.bind]
  norm_num [List.range_succ]
  norm_num [diCell, eps, flt, fabs, fdiv, fmul, abs]

theorem minus_di_eval_c3 :
    minus_di [2, 4, 6] [1, 3, 5] [3/2, 7/2, 11/2] 2
      = .ok [none, some 0, some 0] := by
  have htr : trange [2, 4, 6] [1, 3, 5] [3/2, 7/2, 11/2] = .ok [1, 5/2, 5/2] := by
    norm_num [trange, trangeList, hlcOk, hlcRowOk, List.range_succ, max_def, abs]
  have hatr : atr [2, 4, 6] [1, 3, 5] [3/2, 7/2, 11/2] 2
      = .ok [none, some (7/4), some (17/8)] := by
    norm_num [atr, htr, Bind.bind, Except.bind, atrCore, atrScan]
  have hmdm : minus_dm [2, 4, 6] [1, 3, 5] = .ok [none, some 0, some 0] := by
    norm_num [minus_dm, minusDMCell, List.range_succ]
  simp only [minus_di, hmdm, hatr, Bind.bind, Except.bind]
  norm_num [List.range_succ]
  norm_num [diCell, eps, flt, fabs, fdiv, fmul, abs]

/-- C3 counterexample: at `high=[2,4,6], low=[1,3,5],
close=[3/2,7/2,11/2], period=2`, index 1, the program returns the
defined value `800/7` while the claim's formula
`100·WilderSmooth(+DM)/WilderSmooth(TR)` is NaN there — the
Wilder-smoothed `+DM` seed averages the NaN at `+DM[0]` — so
`plus_di` does not equal the claimed smoothed-DM quotient. -/
theorem C3_counterexample :
    plus_di [2, 4, 6] [1, 3, 5] [3/2, 7/2, 11/2] 2
      = .ok [none, some (800/7), some (1600/17)] ∧
    ([none, some (800/7), some (1600/17)] : List F).getD 1 none = some (800/7) ∧
    (plusDISpec [2, 4, 6] [1, 3, 5] [3/2, 7/2, 11/2] 2).getD 1 none = none := by
  refine ⟨plus_di_eval_c3, rfl, ?_⟩
  have hsdm : wilderSmoothSpec ((List.range ([2, 4, 6] : List ℚ).length).map fun i =>
      if i = 0 then none
      else some (plusDMCell (([2,4,6] : List ℚ).getD (i-1) 0) (([1,3,5] : List ℚ).getD (i-1) 0)
        (([2,4,6] : List ℚ).getD i 0) (([1,3,5] : List ℚ).getD i 0))) 2
      = [none, none, none] := by
    have h0 : ((List.range ([2, 4, 6] : List ℚ).length).map fun i =>
        if i = 0 then none
        else some (plusDMCell (([2,4,6] : List ℚ).getD (i-1) 0) (([1,3,5] : List ℚ).getD (i-1) 0)
          (([2,4,6] : List ℚ).getD i 0) (([1,3,5] : List ℚ).getD i 0)))
        = [none, some 2, some 2] := by
      norm_num [plusDMCell, List.range_succ]
    rw [h0]
    norm_num [wilderSmoothSpec, wilderScan, fsum, fadd, fmul, fdiv]
  unfold plusDISpec
  rw [hsdm]
  have hstr : wilderSmoothSpec ((trangeList [2, 4, 6] [1, 3, 5] [3/2, 7/2, 11/2]).map some) 2
      = [none, some (7/4), some (17/8)] := by
    have h1 : trangeList [2, 4, 6] [1, 3, 5] [3/2, 7/2, 11/2] = [1, 5/2, 5/2] := by
      norm_num [trangeList, List.range_succ, max_def, abs]
    rw [h1]
    norm_num [wilderSmoothSpec, wilderScan, fsum, fadd, fmul, fdiv]
  rw [hstr]
  norm_num [List.range_succ, eps, flt, fabs, fdiv, fmul, abs]

/-- Witness for the amended C3 at the same concrete call. -/
theorem C3_di_uses_raw_dm_witness :
    ∃ pdm mdm a tr,
      plus_dm [2, 4, 6] [1, 3, 5] = .ok pdm ∧ minus_dm [2, 4, 6] [1, 3, 5] = .ok mdm ∧
      trange [2, 4, 6] [1, 3, 5] [3/2, 7/2, 11/2] = .ok tr ∧
      atr [2, 4, 6] [1, 3, 5] [3/2, 7/2, 11/2] 2 = .ok a ∧
      a = wilderSmoothSpec (tr.map some) 2 ∧
      (∀ i, i < ([3/2, 7/2, 11/2] : List ℚ).length →
        ([none, some (800/7), some (1600/17)] : List F).getD i none =
          (if flt (fabs (a.getD i none)) (some eps) then some 0
           else fdiv (fmul (some 100) (pdm.getD i none)) (a.getD i none))) ∧
      (∀ i, i < ([3/2, 7/2, 11/2] : List ℚ).length →
        ([none, some 0, some 0] : List F).getD i none =
          (if flt (fabs (a.getD i none)) (some eps) then some 0
           else fdiv (fmul (some 100) (mdm.getD i none)) (a.getD i none))) :=
  C3_di_uses_raw_dm [2, 4, 6] [1, 3, 5] [3/2, 7/2, 11/2] 2
    [none, some (800/7), some (1600/17)] [none, some 0, some 0]
    plus_di_eval_c3 minus_di_eval_c3

/-! ## Bounds for C4 -/

theorem trange_ok_elim {high low close : List ℚ} {tr : List ℚ}
    (hok : trange high low close = .ok tr) :
    tr = trangeList high low close ∧ hlcOk high low close = true := by
  unfold trange at hok
  by_cases h1 : (high.isEmpty ∨ low.isEmpty ∨ close.isEmpty)
  · rw [if_pos h1] at hok; simp at hok
  rw [if_neg h1] at hok
  by_cases h2 : (high.length ≠ low.length ∨ high.length ≠ close.length)
  · rw [if_pos h2] at hok; simp at hok
  rw [if_neg h2] at hok
  by_cases h3 : hlcOk high low close = true
  · rw [if_neg (by simp [h3])] at hok
    exact ⟨(Except.ok.inj hok).symm, h3⟩
  · rw [if_pos (by simpa using h3)] at hok; simp at hok

/-- Every True Range entry is nonnegative (index 0 uses the OHLC
check `low ≤ high`; later entries dominate an absolute value). -/
theorem trangeList_nonneg {high low close : List ℚ}
    (hohlc : hlcOk high low close = true) :
    ∀ t ∈ trangeList high low close, 0 ≤ t := by
  intro t ht
  obtain ⟨i, hi, hfi⟩ := List.mem_map.1 ht
  have hilen : i < high.length := List.mem_range.1 hi
  rw [← hfi]
  by_cases h0 : i = 0
  · rw [if_pos h0]
    have hrow := List.all_eq_true.1 hohlc 0 (List.mem_range.2 (by omega))
    unfold hlcRowOk at hrow
    simp only [Bool.and_eq_true, Bool.not_eq_true', decide_eq_false_iff_not, not_lt] at hrow
    linarith [hrow.1]
  · rw [if_neg h0]
    exact le_trans (abs_nonneg _) (le_max_right _ _)

theorem atrScan_nonneg {a : ℚ} (ha0 : 0 ≤ a) (ha1 : a ≤ 1) :
    ∀ (ts : List ℚ) (prev : ℚ), 0 ≤ prev → (∀ t ∈ ts, 0 ≤ t) →
      ∀ v ∈ atrScan a prev ts, 0 ≤ v := by
  intro ts
  induction ts with
  | nil => intro prev _ _ v hv; cases hv
  | cons t rest ih =>
    intro prev hprev hts v hv
    have ht : 0 ≤ t := hts t (List.mem_cons_self _ _)
    have hnext : 0 ≤ a * t + (1 - a) * prev := by
      have h1 : 0 ≤ a * t := mul_nonneg ha0 ht
      have h2 : 0 ≤ (1 - a) * prev := mul_nonneg (by linarith) hprev
      linarith
    rcases List.mem_cons.1 hv with hv0 | hvr
    · rw [hv0]; exact hnext
    · exact ih _ hnext (fun t' ht' => hts t' (List.mem_cons_of_mem _ ht')) v hvr

/-- Every defined ATR entry is nonnegative. -/
theorem atr_entries_nonneg {high low close : List ℚ} {p : Nat} {a : List F}
    (hok : atr high low close p = .ok a) :
    ∀ i v, a.getD i none = some v → 0 ≤ v := by
  obtain ⟨tr, htr, haout, hp1, hple, hll, hlc, hne⟩ := atr_ok_elim hok
  obtain ⟨htrl, hohlc⟩ := trange_ok_elim htr
  have htrnn : ∀ t ∈ tr, 0 ≤ t := by rw [htrl]; exact trangeList_nonneg hohlc
  intro i v hv
  have hmem : some v ∈ a := by
    rcases lt_or_le i a.length with h | h
    · rw [List.getD_eq_getElem _ _ h] at hv
      rw [← hv]
      exact List.getElem_mem _
    · rw [List.getD_eq_default _ _ h] at hv; cases hv
  rw [haout] at hmem
  unfold atrCore at hmem
  rcases List.mem_append.1 hmem with hrep | hmap
  · have := List.eq_of_mem_replicate hrep; cases this
  · obtain ⟨w, hw, hww⟩ := List.mem_map.1 hmap
    have hv' : w = v := by injection hww
    subst hv'
    have halpha0 : (0 : ℚ) ≤ 1 / p := by positivity
    have halpha1 : (1 : ℚ) / p ≤ 1 := by
      rw [div_le_one (by exact_mod_cast hp1)]
      exact_mod_cast hp1
    have hseed : 0 ≤ (tr.take p).sum / (p : ℚ) := by
      apply div_nonneg _ (by positivity)
      exact List.sum_nonneg (fun t ht => htrnn t (List.mem_of_mem_take ht))
    rcases List.mem_cons.1 hw with hw0 | hwr
    · rw [hw0]; exact hseed
    · exact atrScan_nonneg halpha0 halpha1 _ _ hseed
        (fun t ht => htrnn t (List.mem_of_mem_drop ht)) w hwr

/-- A defined `dxCell` value always lies in `[0, 100]`. -/
theorem dxCell_bounds {pv mv : F} {v : ℚ} (h : dxCell pv mv = some v) :
    0 ≤ v ∧ v ≤ 100 := by
  unfold dxCell at h
  by_cases hflt : flt (fadd (fabs pv) (fabs mv)) (some eps) = true
  · rw [if_pos hflt] at h
    have : v = 0 := by injection h.symm
    subst this; norm_num
  rw [if_neg hflt] at h
  cases pv with
  | none => simp at h
  | some av =>
    cases mv with
    | none => simp at h
    | some bv =>
      simp only [fabs_some, fadd_some, fsub_some, fmul_some, fdiv_some] at h hflt
      have hv : v = 100 * |av - bv| / (|av| + |bv|) := by injection h.symm
      have habs : ¬ (|av| + |bv| < eps) := by simpa using hflt
      have heps : (0 : ℚ) < eps := by norm_num [eps]
      have hd : 0 < |av| + |bv| := lt_of_lt_of_le heps (not_lt.1 habs)
      constructor
      · rw [hv]; positivity
      · rw [hv, div_le_iff₀ hd]
        have htri : |av - bv| ≤ |av| + |bv| := abs_sub av bv
        nlinarith [abs_nonneg (av - bv)]

/-- A defined `diCell` value is nonnegative provided the DM cell and
the ATR cell are nonnegative whenever defined. -/
theorem diCell_nonneg {dmv av : F} {v : ℚ}
    (hdm : ∀ d, dmv = some d → 0 ≤ d) (ha : ∀ w, av = some w → 0 ≤ w)
    (h : diCell dmv av = some v) : 0 ≤ v := by
  unfold diCell at h
  by_cases hflt : flt (fabs av) (some eps) = true
  · rw [if_pos hflt] at h
    have : v = 0 := by injection h.symm
    subst this; norm_num
  rw [if_neg hflt] at h
  cases av with
  | none => simp at h
  | some w =>
    cases dmv with
    | none => simp at h
    | some d =>
      simp only [fabs_some, fmul_some, fdiv_some] at h hflt
      have hv : v = 100 * d / w := by injection h.symm
      have habs : ¬ (|w| < eps) := by simpa using hflt
      have heps : (0 : ℚ) < eps := by norm_num [eps]
      have hw0 : 0 ≤ w := ha w rfl
      have hw : 0 < w := by
        rcases eq_or_lt_of_le hw0 with hw | hw
        · exfalso; apply habs; rw [← hw]; simpa using heps
        · exact hw
      rw [hv]
      exact div_nonneg (mul_nonneg (by norm_num) (hdm d rfl)) (le_of_lt hw)

theorem foldl_fadd_bounds :
    ∀ (l : List F) (a s : ℚ),
      (∀ q : ℚ, some q ∈ l → 0 ≤ q ∧ q ≤ 100) →
      l.foldl fadd (some a) = some s → a ≤ s ∧ s ≤ a + 100 * l.length := by
  intro l
  induction l with
  | nil =>
    intro a s _ h
    have : a = s := by injection h
    subst this; simp
  | cons x t ih =>
    intro a s hl h
    simp only [List.foldl_cons] at h
    cases x with
    | none => rw [fadd_none] at h; rw [foldl_fadd_none] at h; cases h
    | some q =>
      rw [fadd_some] at h
      have hq := hl q (List.mem_cons_self _ _)
      have := ih (a + q) s (fun r hr => hl r (List.mem_cons_of_mem _ hr)) h
      constructor
      · linarith [this.1, hq.1]
      · have h2 := this.2
        simp only [List.length_cons]
        push_cast
        push_cast at h2
        linarith [hq.2]

theorem fsum_bounds {l : List F} {s : ℚ}
    (hl : ∀ q : ℚ, some q ∈ l → 0 ≤ q ∧ q ≤ 100) (h : fsum l = some s) :
    0 ≤ s ∧ s ≤ 100 * l.length := by
  have := foldl_fadd_bounds l 0 s hl h
  constructor <;> linarith [this.1, this.2]

theorem emaStep_bounds {m : ℚ} (hm0 : 0 < m) (hm1 : m ≤ 1) {x prev : F} {u : ℚ}
    (hx : ∀ q : ℚ, x = some q → 0 ≤ q ∧ q ≤ 100)
    (hprev : ∀ w : ℚ, prev = some w → 0 ≤ w ∧ w ≤ 100)
    (h : fadd (fmul x (some m)) (fmul prev (some (1 - m))) = some u) :
    0 ≤ u ∧ u ≤ 100 := by
  cases x with
  | none => simp at h
  | some q =>
    cases prev with
    | none => simp at h
    | some w =>
      simp only [fmul_some, fadd_some] at h
      have hu : u = q * m + w * (1 - m) := by injection h.symm
      obtain ⟨hq0, hq1⟩ := hx q rfl
      obtain ⟨hw0, hw1⟩ := hprev w rfl
      constructor
      · rw [hu]
        have := mul_nonneg hq0 (le_of_lt hm0)
        have := mul_nonneg hw0 (by linarith : (0:ℚ) ≤ 1 - m)
        linarith
      · rw [hu]
        nlinarith

theorem emaScan_bounds {m : ℚ} (hm0 : 0 < m) (hm1 : m ≤ 1) :
    ∀ (l : List F) (prev : F),
      (∀ q : ℚ, some q ∈ l → 0 ≤ q ∧ q ≤ 100) →
      (∀ w : ℚ, prev = some w → 0 ≤ w ∧ w ≤ 100) →
      ∀ v : ℚ, some v ∈ emaScan m prev l → 0 ≤ v ∧ v ≤ 100 := by
  intro l
  induction l with
  | nil => intro prev _ _ v hv; cases hv
  | cons x xs ih =>
    intro prev hl hprev v hv
    simp only [emaScan] at hv
    have hhead : ∀ u : ℚ,
        fadd (fmul x (some m)) (fmul prev (some (1 - m))) = some u → 0 ≤ u ∧ u ≤ 100 :=
      fun u hu => emaStep_bounds hm0 hm1 (fun q hq => hl q (hq ▸ List.mem_cons_self _ _))
        hprev hu
    rcases List.mem_cons.1 hv with hv0 | hvr
    · exact hhead v hv0.symm
    · exact ih _ (fun q hq => hl q (List.mem_cons_of_mem _ hq)) hhead v hvr

/-- Every defined entry of `emaCore` is in `[0,100]` when every
defined data entry is: the output is a chain of convex combinations. -/
theorem emaCore_bounds {data : List F} {p : Nat} (hp : 1 ≤ p) (_hlen : p ≤ data.length)
    (hdata : ∀ q : ℚ, some q ∈ data → 0 ≤ q ∧ q ≤ 100) :
    ∀ v : ℚ, some v ∈ emaCore data p → 0 ≤ v ∧ v ≤ 100 := by
  have hm0 : (0 : ℚ) < 2 / (p + 1) := by positivity
  have hm1 : (2 : ℚ) / (p + 1) ≤ 1 := by
    rw [div_le_one (by positivity)]
    have : (1 : ℚ) ≤ p := by exact_mod_cast hp
    linarith
  have hseed : ∀ w : ℚ, fdiv (fsum (data.take p)) (some p) = some w → 0 ≤ w ∧ w ≤ 100 := by
    intro w hw
    cases hs : fsum (data.take p) with
    | none => rw [hs] at hw; simp [fdiv] at hw
    | some s =>
      rw [hs] at hw
      simp only [fdiv_some] at hw
      have hwv : w = s / p := by injection hw.symm
      have hb := fsum_bounds (fun q hq => hdata q (List.mem_of_mem_take hq)) hs
      have hlt : ((data.take p).length : ℚ) ≤ p := by
        rw [data.length_take p]
        exact_mod_cast Nat.min_le_left _ _
      have hppos : (0 : ℚ) < p := by exact_mod_cast hp
      constructor
      · rw [hwv]; exact div_nonneg hb.1 (le_of_lt hppos)
      · rw [hwv, div_le_iff₀ hppos]
        nlinarith [hb.2]
  intro v hv
  unfold emaCore at hv
  rcases List.mem_append.1 hv with hrep | hcons
  · have := List.eq_of_mem_replicate hrep; cases this
  · rcases List.mem_cons.1 hcons with hv0 | hvr
    · exact hseed v hv0.symm
    · exact emaScan_bounds hm0 hm1 _ _ (fun q hq => hdata q (List.mem_of_mem_drop hq))
        hseed v hvr

theorem getD_some_mem {l : List F} {i : Nat} {v : ℚ} (h : l.getD i none = some v) :
    some v ∈ l := by
  rcases lt_or_le i l.length with hlt | hle
  · rw [List.getD_eq_getElem _ _ hlt] at h
    rw [← h]
    exact List.getElem_mem _
  · rw [List.getD_eq_default _ _ hle] at h; cases h

theorem plusDMCell_nonneg (a b c d : ℚ) : 0 ≤ plusDMCell a b c d := by
  simp only [plusDMCell]
  split_ifs with h
  · linarith [h.1]
  · exact le_refl 0

theorem minusDMCell_nonneg (a b c d : ℚ) : 0 ≤ minusDMCell a b c d := by
  simp only [minusDMCell]
  split_ifs with h
  · linarith [h.1]
  · exact le_refl 0

theorem plus_dm_entries_nonneg {high low : List ℚ} {pdm : List F}
    (hok : plus_dm high low = .ok pdm) :
    ∀ i d, pdm.getD i none = some d → 0 ≤ d := by
  unfold plus_dm at hok
  by_cases hc : low.length ≠ high.length
  · rw [if_pos hc] at hok; simp at hok
  rw [if_neg hc] at hok
  have hout := (Except.ok.inj hok).symm
  intro i d hd
  have hmem := getD_some_mem (hout ▸ hd)
  obtain ⟨j, _, hj⟩ := List.mem_map.1 hmem
  by_cases hj0 : j = 0
  · rw [if_pos hj0] at hj; cases hj
  · rw [if_neg hj0] at hj
    have : plusDMCell (high.getD (j-1) 0) (low.getD (j-1) 0) (high.getD j 0) (low.getD j 0) = d := by
      injection hj
    rw [← this]
    exact plusDMCell_nonneg _ _ _ _

theorem minus_dm_entries_nonneg {high low : List ℚ} {mdm : List F}
    (hok : minus_dm high low = .ok mdm) :
    ∀ i d, mdm.getD i none = some d → 0 ≤ d := by
  unfold minus_dm at hok
  by_cases hc : low.length ≠ high.length
  · rw [if_pos hc] at hok; simp at hok
  rw [if_neg hc] at hok
  have hout := (Except.ok.inj hok).symm
  intro i d hd
  have hmem := getD_some_mem (hout ▸ hd)
  obtain ⟨j, _, hj⟩ := List.mem_map.1 hmem
  by_cases hj0 : j = 0
  · rw [if_pos hj0] at hj; cases hj
  · rw [if_neg hj0] at hj
    have : minusDMCell (high.getD (j-1) 0) (low.getD (j-1) 0) (high.getD j 0) (low.getD j 0) = d := by
      injection hj
    rw [← this]
    exact minusDMCell_nonneg _ _ _ _

/-- C4 (amended): wherever defined, `dx` and `adx` values lie in
`[0, 100]`, and `plus_di`/`minus_di` values are nonnegative — but the
DI values are *not* bounded by 100, because the raw `±DM` of a single
bar is divided by the smoothed (averaged) True Range, which can be
smaller than that bar's own range. -/
theorem C4_bounds (high low close : List ℚ) (p : Nat)
    (outdx outadx outp outm : List F)
    (hdxok : dx high low close p = .ok outdx)
    (hadxok : adx high low close p = .ok outadx)
    (hpok : plus_di high low close p = .ok outp)
    (hmok : minus_di high low close p = .ok outm) :
    (∀ v : ℚ, some v ∈ outdx → 0 ≤ v ∧ v ≤ 100) ∧
    (∀ v : ℚ, some v ∈ outadx → 0 ≤ v ∧ v ≤ 100) ∧
    (∀ v : ℚ, some v ∈ outp → 0 ≤ v) ∧
    (∀ v : ℚ, some v ∈ outm → 0 ≤ v) := by
  refine ⟨?_, ?_, ?_, ?_⟩
  · intro v hv
    obtain ⟨pdi, mdi, _, _, hout, _, _⟩ := dx_ok_elim hdxok
    rw [hout] at hv
    obtain ⟨i, _, hfi⟩ := List.mem_map.1 hv
    exact dxCell_bounds hfi
  · intro v hv
    obtain ⟨dxv, hdx', hema⟩ := adx_ok_elim hadxok
    obtain ⟨hout, hp1, hple, _⟩ := ema_ok_elim hema
    rw [hout] at hv
    refine emaCore_bounds hp1 hple ?_ v hv
    intro q hq
    obtain ⟨pdi, mdi, _, _, hdxout, _, _⟩ := dx_ok_elim hdx'
    rw [hdxout] at hq
    obtain ⟨i, _, hfi⟩ := List.mem_map.1 hq
    exact dxCell_bounds hfi
  · intro v hv
    obtain ⟨pdm, a, hpdm, ha, hout⟩ := plus_di_ok_elim hpok
    rw [hout] at hv
    obtain ⟨i, _, hfi⟩ := List.mem_map.1 hv
    exact diCell_nonneg (fun d hd => plus_dm_entries_nonneg hpdm i d hd)
      (fun w hw => atr_entries_nonneg ha i w hw) hfi
  · intro v hv
    obtain ⟨mdm, a, hmdm, ha, hout⟩ := minus_di_ok_elim hmok
    rw [hout] at hv
    obtain ⟨i, _, hfi⟩ := List.mem_map.1 hv
    exact diCell_nonneg (fun d hd => minus_dm_entries_nonneg hmdm i d hd)
      (fun w hw => atr_entries_nonneg ha i w hw) hfi

/-- C4 counterexample: at the OHLC-consistent input
`high=[1,1,11], low=[1,1,10], close=[1,1,21/2]` with `period = 2`,
`plus_di` returns the defined value `200 > 100` at index 2: two flat
bars give a smoothed True Range of 5 at the third bar while the raw
`+DM` there is 10. -/
theorem C4_counterexample :
    plus_di [1, 1, 11] [1, 1, 10] [1, 1, 21/2] 2 = .ok [none, some 0, some 200] ∧
    ¬ ((200 : ℚ) ≤ 100) := by
  constructor
  · have htr : trange [1, 1, 11] [1, 1, 10] [1, 1, 21/2] = .ok [0, 0, 10] := by
      norm_num [trange, trangeList, hlcOk, hlcRowOk, List.range_succ, max_def, abs]
    have hatr : atr [1, 1, 11] [1, 1, 10] [1, 1, 21/2] 2 = .ok [none, some 0, some 5] := by
      norm_num [atr, htr, Bind.bind, Except.bind, atrCore, atrScan]
    have hpdm : plus_dm [1, 1, 11] [1, 1, 10] = .ok [none, some 0, some 10] := by
      norm_num [plus_dm, plusDMCell, List.range_succ]
    simp only [plus_di, hpdm, hatr, Bind.bind, Except.bind]
    norm_num [List.range_succ]
    norm_num [diCell, eps, flt, fabs, fdiv, fmul, abs]
  · norm_num

/-- Witness for the amended C4 at a concrete call with `period = 1`. -/
theorem C4_bounds_witness :
    (∀ v : ℚ, some v ∈ ([none, some 100] : List F) → 0 ≤ v ∧ v ≤ 100) ∧
    (∀ v : ℚ, some v ∈ ([none, none] : List F) → 0 ≤ v ∧ v ≤ 100) ∧
    (∀ v : ℚ, some v ∈ ([none, some 100] : List F) → 0 ≤ v) ∧
    (∀ v : ℚ, some v ∈ ([none, some 0] : List F) → 0 ≤ v) :=
  C4_bounds [2, 3] [1, 2] [2, 3] 1 [none, some 100] [none, none] [none, some 100]
    [none, some 0] dx_eval_p1 adx_eval_p1 plus_di_eval_p1 minus_di_eval_p1

/-! ## C6: short-input error kinds -/

/-- C6 (amended): a too-short series makes `rsi` fail with
`InsufficientData`, but `sar` (fewer than 2 bars) and `mama` (fewer
than 32 samples) fail with the `InvalidInput` kind instead. -/
theorem C6_short_input_errors (prices : List ℚ) (p : Nat) (high low close : List ℚ)
    (a m fl sl : ℚ) :
    (1 ≤ p → prices.length ≤ p →
      rsi prices p = .error (.insufficientData (p + 1) prices.length)) ∧
    (high ≠ [] → low ≠ [] → high.length = low.length → 0 < a → 0 < m → a ≤ m →
      high.length < 2 → sar high low a m = .error .invalidInput) ∧
    (close ≠ [] → 0 < sl → sl < fl → fl ≤ 1 → close.length < 32 →
      ∀ instP phaseOr : ℚ → ℚ → ℚ, mama instP phaseOr close fl sl = .error .invalidInput) := by
  refine ⟨?_, ?_, ?_⟩
  · intro hp hlen
    unfold rsi
    rw [if_neg (by omega), if_pos hlen]
  · intro hne hnel hlen ha hm ham hlt
    unfold sar
    rw [if_neg (by simp [List.isEmpty_iff, hne, hnel]), if_neg (by omega),
      if_neg (by push_neg; constructor <;> linarith), if_neg (by linarith), if_pos hlt]
  · intro hne hsl hslf hfl hlen instP phaseOr
    unfold mama
    rw [if_neg (by simp [List.isEmpty_iff, hne]),
      if_neg (by push_neg; constructor <;> linarith), if_neg (by linarith),
      if_neg (by push_neg; constructor <;> linarith), if_pos hlen]

/-- C6 counterexample: `sar` on a single bar returns the
`InvalidInput` kind, not `InsufficientData` as claimed (and `mama` on
10 samples does the same). -/
theorem C6_counterexample :
    sar [1] [1] (1/50) (1/5) = .error .invalidInput ∧
    mama (fun _ _ => 0) (fun _ _ => 0) (List.replicate 10 20) (1/2) (1/20)
      = .error .invalidInput := by
  constructor
  · norm_num [sar]
  · norm_num [mama]

/-- Witness for the amended C6 at concrete short inputs. -/
theorem C6_short_input_errors_witness :
    rsi [1, 2] 3 = .error (.insufficientData (3 + 1) ([1, 2] : List ℚ).length) ∧
    sar [1] [1] (1/50) (1/5) = .error .invalidInput ∧
    mama (fun _ _ => 0) (fun _ _ => 0) (List.replicate 10 20) (1/2) (1/20)
      = .error .invalidInput := by
  have h := C6_short_input_errors [1, 2] 3 [1] [1] (List.replicate 10 20)
    (1/50) (1/5) (1/2) (1/20)
  exact ⟨h.1 (by norm_num) (by norm_num),
    h.2.1 (by norm_num) (by norm_num) (by norm_num) (by norm_num) (by norm_num)
      (by norm_num) (by norm_num),
    h.2.2 (by norm_num) (by norm_num) (by norm_num) (by norm_num) (by norm_num) _ _⟩

/-! ## C5: the MAMA period clamp -/

/-- The four clamping steps always land in `[6, 50]`, for every
previous period and every raw instantaneous period. -/
theorem clampPeriod_bounds (prev raw : ℚ) :
    6 ≤ clampPeriod prev raw ∧ clampPeriod prev raw ≤ 50 := by
  simp only [clampPeriod]
  split_ifs <;> constructor <;> linarith

/-- The subsequent `0.2·clamped + 0.8·prev` smoothing stays in
`[6, 50]` whenever the previous period is already there. -/
theorem periodSmooth_bounds (pp raw : ℚ) (h6 : 6 ≤ pp) (h50 : pp ≤ 50) :
    6 ≤ 1/5 * clampPeriod pp raw + 4/5 * pp ∧
    1/5 * clampPeriod pp raw + 4/5 * pp ≤ 50 := by
  obtain ⟨h1, h2⟩ := clampPeriod_bounds pp raw
  constructor <;> linarith

/-- C5 (amended): within the loop body of `mama`, the period value
after the four clamping steps is always in `[6, 50]`, and the
exponentially smoothed `period[i]` stays in `[6, 50]` provided
`period[i-1]` is already there.  (During warm-up, with `period`
seeded at 0, the smoothed value can leave the interval.) -/
theorem C5_period_clamp (instP phaseOr : ℚ → ℚ → ℚ) (fl sl ci cm1 cm2 cm3 : ℚ)
    (s : MSt) (pp raw : ℚ) (h6 : 6 ≤ s.period) (h50 : s.period ≤ 50) :
    (6 ≤ clampPeriod pp raw ∧ clampPeriod pp raw ≤ 50) ∧
    (6 ≤ (mamaStep instP phaseOr fl sl ci cm1 cm2 cm3 s).period ∧
      (mamaStep instP phaseOr fl sl ci cm1 cm2 cm3 s).period ≤ 50) :=
  ⟨clampPeriod_bounds pp raw, periodSmooth_bounds s.period _ h6 h50⟩

/-- Witness for the amended C5 at a concrete state with period 20. -/
theorem C5_period_clamp_witness :
    ((6 : ℚ) ≤ clampPeriod 0 0 ∧ clampPeriod 0 0 ≤ 50) ∧
    (6 ≤ (mamaStep (fun _ _ => 0) (fun _ _ => 0) (1/2) (1/20) 20 20 20 20
        ⟨List.replicate 6 0, List.replicate 6 0, List.replicate 6 0, List.replicate 6 0,
          0, 0, 0, 0, 20, 0, 20, 20⟩).period ∧
      (mamaStep (fun _ _ => 0) (fun _ _ => 0) (1/2) (1/20) 20 20 20 20
        ⟨List.replicate 6 0, List.replicate 6 0, List.replicate 6 0, List.replicate 6 0,
          0, 0, 0, 0, 20, 0, 20, 20⟩).period ≤ 50) :=
  C5_period_clamp (fun _ _ => 0) (fun _ _ => 0) (1/2) (1/20) 20 20 20 20
    ⟨List.replicate 6 0, List.replicate 6 0, List.replicate 6 0, List.replicate 6 0,
      0, 0, 0, 0, 20, 0, 20, 20⟩ 0 0 (by norm_num) (by norm_num)

/-- C5 counterexample: on the constant series `close = replicate 32 20`
(with `fast = 1/2`, `slow = 1/20`, a successful call), the internal
period value held after the clamping *and* exponential smoothing of
the first processed bar (`i = 6`) is `0.2·6 + 0.8·0 = 1.2`, outside
`[6, 50]`: the smoothing mixes the clamped value with the zero-seeded
previous period.  (At this bar `im = re = 0`, so the `atan2` oracle is
never consulted and the value is oracle-independent.) -/
theorem C5_counterexample :
    (mama (fun _ _ => 0) (fun _ _ => 0) (List.replicate 32 20) (1/2) (1/20)).isOk = true ∧
    ((mamaTrace (fun _ _ => 0) (fun _ _ => 0) (List.replicate 32 20) (1/2) (1/20)).getD 0
      (mInit 0)).period = 6/5 ∧
    ¬ (6 ≤ (6/5 : ℚ)) := by
  refine ⟨?_, ?_, by norm_num⟩
  · norm_num [mama, Except.isOk, Except.toBool]
  · obtain ⟨rest, hb⟩ : ∃ rest, mamaBars (List.replicate 32 (20:ℚ)) = (20, 20, 20, 20) :: rest := by
      refine ⟨((List.range 32).drop 7).map fun i =>
        ((List.replicate 32 (20:ℚ)).getD i 0, (List.replicate 32 (20:ℚ)).getD (i-1) 0,
         (List.replicate 32 (20:ℚ)).getD (i-2) 0, (List.replicate 32 (20:ℚ)).getD (i-3) 0), ?_⟩
      norm_num [mamaBars, List.range_succ]
    unfold mamaTrace
    rw [hb]
    have hinit : mInit ((List.replicate 32 (20:ℚ)).getD 0 0) = mInit 20 := by norm_num
    rw [hinit]
    simp only [mamaTraceAux, List.getD_cons_zero]
    norm_num [mamaStep, mInit, hilbert, clampPeriod]

theorem afBump_bounds {accel maxAccel af : ℚ} (ha : 0 < accel) (ham : accel ≤ maxAccel)
    (h1 : accel ≤ af) (h2 : af ≤ maxAccel) :
    accel ≤ afBump accel maxAccel af ∧ afBump accel maxAccel af ≤ maxAccel ∧
      af ≤ afBump accel maxAccel af :=
  ⟨le_min (by linarith) ham, min_le_right _ _, le_min (by linarith) h2⟩

theorem sarStep_af {accel maxAccel : ℚ} (ha : 0 < accel) (ham : accel ≤ maxAccel)
    (hp lp hc lc : ℚ) (s : SarState) (haf1 : accel ≤ s.af) (haf2 : s.af ≤ maxAccel) :
    (accel ≤ (sarStep accel maxAccel hp lp hc lc s).1.af ∧
      (sarStep accel maxAccel hp lp hc lc s).1.af ≤ maxAccel) ∧
    ((sarStep accel maxAccel hp lp hc lc s).2 = false →
      s.af ≤ (sarStep accel maxAccel hp lp hc lc s).1.af) ∧
    ((sarStep accel maxAccel hp lp hc lc s).2 = true →
      (sarStep accel maxAccel hp lp hc lc s).1.af = accel) := by
  obtain ⟨long, sarv, epv, afv⟩ := s
  simp only [sarStep]
  cases long <;> simp only [Bool.false_eq_true, if_true, if_false, reduceIte] <;>
      split_ifs with h1 h2 h3 <;>
      refine ⟨⟨?_, ?_⟩, ?_, ?_⟩ <;> intros <;> simp_all <;>
      obtain ⟨b1, b2, b3⟩ := afBump_bounds ha ham haf1 haf2 <;> try linarith
  all_goals {
    obtain ⟨c1, c2, c3⟩ := afBump_bounds ha ham b1 b2
    linarith
  }

theorem sarTraceAux_inv {accel maxAccel : ℚ} (ha : 0 < accel) (ham : accel ≤ maxAccel) :
    ∀ (bars : List (ℚ × ℚ × ℚ × ℚ)) (s : SarState), accel ≤ s.af → s.af ≤ maxAccel →
      ∀ r ∈ sarTraceAux accel maxAccel s bars,
        (accel ≤ r.1.af ∧ r.1.af ≤ maxAccel) ∧ (r.2 = true → r.1.af = accel) := by
  intro bars
  induction bars with
  | nil => intro s _ _ r hr; cases hr
  | cons b rest ih =>
    intro s hs1 hs2 r hr
    obtain ⟨hp, lp, hc, lc⟩ := b
    have hstep := sarStep_af ha ham hp lp hc lc s hs1 hs2
    simp only [sarTraceAux] at hr
    rcases List.mem_cons.1 hr with hr0 | hrr
    · subst hr0
      exact ⟨hstep.1, hstep.2.2⟩
    · exact ih _ hstep.1.1 hstep.1.2 r hrr

theorem sarTraceAux_consec {accel maxAccel : ℚ} (ha : 0 < accel) (ham : accel ≤ maxAccel)
    (d : SarState × Bool) :
    ∀ (bars : List (ℚ × ℚ × ℚ × ℚ)) (s : SarState), accel ≤ s.af → s.af ≤ maxAccel →
      ∀ k, k + 1 < (sarTraceAux accel maxAccel s bars).length →
        ((sarTraceAux accel maxAccel s bars).getD (k+1) d).2 = false →
        ((sarTraceAux accel maxAccel s bars).getD k d).1.af ≤
          ((sarTraceAux accel maxAccel s bars).getD (k+1) d).1.af := by
  intro bars
  induction bars with
  | nil => intro s _ _ k hk; simp [sarTraceAux] at hk
  | cons b rest ih =>
    intro s hs1 hs2 k hk hfalse
    obtain ⟨hp, lp, hc, lc⟩ := b
    have hstep := sarStep_af ha ham hp lp hc lc s hs1 hs2
    simp only [sarTraceAux] at hk hfalse ⊢
    cases k with
    | zero =>
      simp only [List.getD_cons_zero, List.getD_cons_succ] at hfalse ⊢
      -- the head of the tail trace is one step from the head state
      cases rest with
      | nil => simp [sarTraceAux] at hk
      | cons b2 rest2 =>
        obtain ⟨hp2, lp2, hc2, lc2⟩ := b2
        have hstep2 := sarStep_af ha ham hp2 lp2 hc2 lc2
          (sarStep accel maxAccel hp lp hc lc s).1 hstep.1.1 hstep.1.2
        simp only [sarTraceAux, List.getD_cons_zero] at hfalse ⊢
        exact hstep2.2.1 hfalse
    | succ k =>
      simp only [List.getD_cons_succ] at hfalse ⊢
      exact ih _ hstep.1.1 hstep.1.2 k (by simpa using hk) hfalse

/-- C7: along the SAR state trace, the acceleration factor always
stays in `[acceleration, max_acceleration]`; it is non-decreasing
across any step that is not a reversal; and a reversal resets it to
the initial acceleration. -/
theorem C7_sar_acceleration (high low : List ℚ) (accel maxAccel : ℚ)
    (ha : 0 < accel) (ham : accel ≤ maxAccel) :
    (∀ r ∈ sarTrace high low accel maxAccel,
      (accel ≤ r.1.af ∧ r.1.af ≤ maxAccel) ∧ (r.2 = true → r.1.af = accel)) ∧
    (∀ k, k + 1 < (sarTrace high low accel maxAccel).length →
      ((sarTrace high low accel maxAccel).getD (k+1) (⟨true, 0, 0, 0⟩, false)).2 = false →
      ((sarTrace high low accel maxAccel).getD k (⟨true, 0, 0, 0⟩, false)).1.af ≤
        ((sarTrace high low accel maxAccel).getD (k+1) (⟨true, 0, 0, 0⟩, false)).1.af) := by
  have hinit1 : accel ≤ (sarInit accel high low).af := by
    unfold sarInit; split_ifs <;> simp
  have hinit2 : (sarInit accel high low).af ≤ maxAccel := by
    unfold sarInit; split_ifs <;> simpa
  exact ⟨fun r hr => sarTraceAux_inv ha ham _ _ hinit1 hinit2 r hr,
    fun k hk hf => sarTraceAux_consec ha ham _ _ _ hinit1 hinit2 k hk hf⟩

/-- Witness for C7 on a concrete uptrend call. -/
theorem C7_sar_acceleration_witness :
    (∀ r ∈ sarTrace [21, 22, 23, 24, 25] [20, 21, 22, 23, 24] (1/50) (1/5),
      ((1:ℚ)/50 ≤ r.1.af ∧ r.1.af ≤ 1/5) ∧ (r.2 = true → r.1.af = 1/50)) ∧
    (∀ k, k + 1 < (sarTrace [21, 22, 23, 24, 25] [20, 21, 22, 23, 24] (1/50) (1/5)).length →
      ((sarTrace [21, 22, 23, 24, 25] [20, 21, 22, 23, 24] (1/50) (1/5)).getD (k+1)
        (⟨true, 0, 0, 0⟩, false)).2 = false →
      ((sarTrace [21, 22, 23, 24, 25] [20, 21, 22, 23, 24] (1/50) (1/5)).getD k
        (⟨true, 0, 0, 0⟩, false)).1.af ≤
        ((sarTrace [21, 22, 23, 24, 25] [20, 21, 22, 23, 24] (1/50) (1/5)).getD (k+1)
          (⟨true, 0, 0, 0⟩, false)).1.af) :=
  C7_sar_acceleration [21, 22, 23, 24, 25] [20, 21, 22, 23, 24] (1/50) (1/5)
    (by norm_num) (by norm_num)

/-! ## RSI lemmas for C8 and C9 -/

theorem gainsLosses_length : ∀ xs : List ℚ, (gainsLosses xs).length = xs.length - 1
  | [] => rfl
  | [_] => rfl
  | a :: b :: rest => by
    simp only [gainsLosses, List.length_cons]
    rw [gainsLosses_length (b :: rest)]
    simp

theorem rsiScan_length (a : ℚ) :
    ∀ (pairs : List (ℚ × ℚ)) (g l : ℚ), (rsiScan a g l pairs).length = pairs.length := by
  intro pairs
  induction pairs with
  | nil => intro g l; rfl
  | cons pr rest ih =>
    intro g l
    obtain ⟨gn, ln⟩ := pr
    simp only [rsiScan, List.length_cons]
    rw [ih]

theorem gainsLosses_nonneg : ∀ xs : List ℚ, ∀ pr ∈ gainsLosses xs, 0 ≤ pr.1 ∧ 0 ≤ pr.2
  | [] => by intro pr hpr; cases hpr
  | [_] => by intro pr hpr; cases hpr
  | a :: b :: rest => by
    intro pr hpr
    simp only [gainsLosses] at hpr
    rcases List.mem_cons.1 hpr with h0 | hr
    · subst h0
      constructor <;> dsimp only <;> split_ifs <;> linarith
    · exact gainsLosses_nonneg (b :: rest) pr hr

theorem rsiVal_bounds {g l : ℚ} (hg : 0 ≤ g) (hl : 0 ≤ l) :
    0 ≤ rsiVal g l ∧ rsiVal g l ≤ 100 := by
  unfold rsiVal
  split_ifs with h0
  · norm_num
  · have hlpos : 0 < l := lt_of_le_of_ne hl (Ne.symm h0)
    have hrs : 0 ≤ g / l := div_nonneg hg (le_of_lt hlpos)
    have hd : (0:ℚ) < 1 + g / l := by linarith
    have h1 : 100 / (1 + g / l) ≤ 100 := by
      rw [div_le_iff₀ hd]; nlinarith
    have h2 : 0 < 100 / (1 + g / l) := by positivity
    constructor <;> linarith

theorem rsiScan_bounds {alpha : ℚ} (h0 : 0 < alpha) (h1 : alpha ≤ 1) :
    ∀ (pairs : List (ℚ × ℚ)) (g l : ℚ), 0 ≤ g → 0 ≤ l →
      (∀ pr ∈ pairs, 0 ≤ pr.1 ∧ 0 ≤ pr.2) →
      ∀ v ∈ rsiScan alpha g l pairs, 0 ≤ v ∧ v ≤ 100 := by
  intro pairs
  induction pairs with
  | nil => intro g l _ _ _ v hv; cases hv
  | cons pr rest ih =>
    intro g l hg hl hpairs v hv
    obtain ⟨gn, ln⟩ := pr
    obtain ⟨hgn, hln⟩ := hpairs (gn, ln) (List.mem_cons_self _ _)
    have hg' : 0 ≤ alpha * gn + (1 - alpha) * g := by
      have := mul_nonneg (le_of_lt h0) hgn
      have := mul_nonneg (by linarith : (0:ℚ) ≤ 1 - alpha) hg
      linarith
    have hl' : 0 ≤ alpha * ln + (1 - alpha) * l := by
      have := mul_nonneg (le_of_lt h0) hln
      have := mul_nonneg (by linarith : (0:ℚ) ≤ 1 - alpha) hl
      linarith
    simp only [rsiScan] at hv
    rcases List.mem_cons.1 hv with hv0 | hvr
    · subst hv0; exact rsiVal_bounds hg' hl'
    · exact ih _ _ hg' hl' (fun q hq => hpairs q (List.mem_cons_of_mem _ hq)) v hvr

theorem rsi_ok_of_valid {prices : List ℚ} {p : Nat} (hp : 1 ≤ p) (hlen : p < prices.length) :
    rsi prices p = .ok (List.replicate p none ++
      (rsiVal ((((gainsLosses prices).take p).map Prod.fst).sum / p)
         ((((gainsLosses prices).take p).map Prod.snd).sum / p) ::
        rsiScan (1 / p) ((((gainsLosses prices).take p).map Prod.fst).sum / p)
          ((((gainsLosses prices).take p).map Prod.snd).sum / p)
          ((gainsLosses prices).drop p)).map some) := by
  unfold rsi
  rw [if_neg (by omega), if_neg (by omega)]

/-- C8: for a finite series longer than `period ≥ 1`, `rsi` succeeds,
the output has the input's length, the first `period` entries are the
NaN sentinel, and every entry from index `period` on is a defined
value in `[0, 100]`. -/
theorem C8_rsi_contract (prices : List ℚ) (p : Nat) (hp : 1 ≤ p)
    (hlen : p < prices.length) :
    ∃ out, rsi prices p = .ok out ∧
      out.length = prices.length ∧
      (∀ i, i < p → out.getD i none = none) ∧
      (∀ i, p ≤ i → i < prices.length → ∃ v, out.getD i none = some v ∧ 0 ≤ v ∧ v ≤ 100) := by
  refine ⟨_, rsi_ok_of_valid hp hlen, ?_, ?_, ?_⟩
  · simp only [List.length_append, List.length_replicate, List.length_map, List.length_cons,
      rsiScan_length, List.length_drop, gainsLosses_length]
    omega
  · intro i hi
    rw [List.getD_append _ _ _ _ (by simpa using hi)]
    exact getD_replicate_none _ _
  · intro i hpi hil
    have halpha0 : (0:ℚ) < 1 / p := by positivity
    have halpha1 : (1:ℚ) / p ≤ 1 := by
      rw [div_le_one (by exact_mod_cast hp)]
      exact_mod_cast hp
    have hg0 : 0 ≤ (((gainsLosses prices).take p).map Prod.fst).sum / (p:ℚ) := by
      apply div_nonneg _ (by positivity)
      apply List.sum_nonneg
      intro x hx
      obtain ⟨pr, hpr, hx'⟩ := List.mem_map.1 hx
      rw [← hx']
      exact (gainsLosses_nonneg prices pr (List.mem_of_mem_take hpr)).1
    have hl0 : 0 ≤ (((gainsLosses prices).take p).map Prod.snd).sum / (p:ℚ) := by
      apply div_nonneg _ (by positivity)
      apply List.sum_nonneg
      intro x hx
      obtain ⟨pr, hpr, hx'⟩ := List.mem_map.1 hx
      rw [← hx']
      exact (gainsLosses_nonneg prices pr (List.mem_of_mem_take hpr)).2
    set vals := rsiVal ((((gainsLosses prices).take p).map Prod.fst).sum / p)
        ((((gainsLosses prices).take p).map Prod.snd).sum / p) ::
      rsiScan (1 / p) ((((gainsLosses prices).take p).map Prod.fst).sum / p)
        ((((gainsLosses prices).take p).map Prod.snd).sum / p)
        ((gainsLosses prices).drop p) with hvals
    have hvlen : vals.length = prices.length - p := by
      rw [hvals]
      simp only [List.length_cons, rsiScan_length, List.length_drop, gainsLosses_length]
      omega
    have hib : i - p < vals.length := by omega
    rw [List.getD_append_right _ _ _ _ (by simpa using hpi)]
    simp only [List.length_replicate]
    rw [getD_map_some (by simpa using hib)]
    refine ⟨vals.getD (i - p) 0, rfl, ?_⟩
    have hmem : vals.getD (i - p) 0 ∈ vals := by
      rw [List.getD_eq_getElem _ _ hib]
      exact List.getElem_mem _
    rw [hvals] at hmem
    rcases List.mem_cons.1 hmem with h0 | hr
    · rw [h0]
      exact rsiVal_bounds hg0 hl0
    · exact rsiScan_bounds halpha0 halpha1 _ _ _ hg0 hl0
        (fun pr hpr => gainsLosses_nonneg prices pr (List.mem_of_mem_drop hpr)) _ hr

/-- Witness for C8 at `prices = [1, 3], period = 1`. -/
theorem C8_rsi_contract_witness :
    ∃ out, rsi [1, 3] 1 = .ok out ∧
      out.length = ([1, 3] : List ℚ).length ∧
      (∀ i, i < 1 → out.getD i none = none) ∧
      (∀ i, 1 ≤ i → i < ([1, 3] : List ℚ).length →
        ∃ v, out.getD i none = some v ∧ 0 ≤ v ∧ v ≤ 100) :=
  C8_rsi_contract [1, 3] 1 (by norm_num) (by norm_num)

theorem gainsLosses_incr : ∀ xs : List ℚ, List.Chain' (· < ·) xs →
    ∀ pr ∈ gainsLosses xs, 0 < pr.1 ∧ pr.2 = 0
  | [] => by intro _ pr hpr; cases hpr
  | [_] => by intro _ pr hpr; cases hpr
  | a :: b :: rest => by
    intro hch pr hpr
    obtain ⟨hab, hch'⟩ := List.chain'_cons.1 hch
    simp only [gainsLosses] at hpr
    rcases List.mem_cons.1 hpr with h0 | hr
    · subst h0
      refine ⟨?_, ?_⟩ <;> dsimp only
      · rw [if_pos (show b - a > 0 by linarith)]
        linarith
      · rw [if_neg (show ¬ (b - a < 0) by linarith)]
    · exact gainsLosses_incr (b :: rest) hch' pr hr

theorem gainsLosses_decr : ∀ xs : List ℚ, List.Chain' (· > ·) xs →
    ∀ pr ∈ gainsLosses xs, pr.1 = 0 ∧ 0 < pr.2
  | [] => by intro _ pr hpr; cases hpr
  | [_] => by intro _ pr hpr; cases hpr
  | a :: b :: rest => by
    intro hch pr hpr
    obtain ⟨hab, hch'⟩ := List.chain'_cons.1 hch
    simp only [gainsLosses] at hpr
    rcases List.mem_cons.1 hpr with h0 | hr
    · subst h0
      refine ⟨?_, ?_⟩ <;> dsimp only
      · rw [if_neg (by simp only [gt_iff_lt] at hab; linarith)]
      · rw [if_pos (by simp only [gt_iff_lt] at hab; linarith)]
        simp only [gt_iff_lt] at hab
        linarith
    · exact gainsLosses_decr (b :: rest) hch' pr hr

@[simp] theorem rsiVal_loss_zero (g : ℚ) : rsiVal g 0 = 100 := by simp [rsiVal]

theorem rsiVal_gain_zero {l : ℚ} (hl : 0 < l) : rsiVal 0 l = 0 := by
  rw [rsiVal, if_neg (by linarith)]
  norm_num

theorem rsiScan_all_100 (alpha : ℚ) :
    ∀ (pairs : List (ℚ × ℚ)) (g l : ℚ), l = 0 → (∀ pr ∈ pairs, pr.2 = 0) →
      ∀ v ∈ rsiScan alpha g l pairs, v = 100 := by
  intro pairs
  induction pairs with
  | nil => intro g l _ _ v hv; cases hv
  | cons pr rest ih =>
    intro g l hl hpairs v hv
    obtain ⟨gn, ln⟩ := pr
    have hln : ln = 0 := hpairs (gn, ln) (List.mem_cons_self _ _)
    have hl' : alpha * ln + (1 - alpha) * l = 0 := by
      rw [hln, hl]; ring
    simp only [rsiScan] at hv
    rcases List.mem_cons.1 hv with hv0 | hvr
    · rw [hv0, hl']
      exact rsiVal_loss_zero _
    · exact ih _ _ hl' (fun q hq => hpairs q (List.mem_cons_of_mem _ hq)) v hvr

theorem rsiScan_all_0 {alpha : ℚ} (h0 : 0 < alpha) (h1 : alpha ≤ 1) :
    ∀ (pairs : List (ℚ × ℚ)) (g l : ℚ), g = 0 → 0 < l →
      (∀ pr ∈ pairs, pr.1 = 0 ∧ 0 < pr.2) →
      ∀ v ∈ rsiScan alpha g l pairs, v = 0 := by
  intro pairs
  induction pairs with
  | nil => intro g l _ _ _ v hv; cases hv
  | cons pr rest ih =>
    intro g l hg hl hpairs v hv
    obtain ⟨gn, ln⟩ := pr
    obtain ⟨hgn, hln⟩ := hpairs (gn, ln) (List.mem_cons_self _ _)
    have hg' : alpha * gn + (1 - alpha) * g = 0 := by
      rw [show gn = 0 from hgn, hg]; ring
    have hl' : 0 < alpha * ln + (1 - alpha) * l := by
      have h2 := mul_pos h0 hln
      have h3 := mul_nonneg (by linarith : (0:ℚ) ≤ 1 - alpha) (le_of_lt hl)
      linarith
    simp only [rsiScan] at hv
    rcases List.mem_cons.1 hv with hv0 | hvr
    · rw [hv0, hg']
      exact rsiVal_gain_zero hl'
    · exact ih _ _ hg' hl' (fun q hq => hpairs q (List.mem_cons_of_mem _ hq)) v hvr

/-- C9: on a strictly increasing series every defined RSI entry is
100, on a strictly decreasing one every defined entry is 0; in
particular `rsi([10,11,12,13,14,15], 3)` is 100 at indices 3, 4, 5. -/
theorem C9_rsi_extremes (prices : List ℚ) (p : Nat) (hp : 1 ≤ p)
    (hlen : p < prices.length) :
    (List.Chain' (· < ·) prices →
      ∀ out, rsi prices p = .ok out → ∀ v : ℚ, some v ∈ out → v = 100) ∧
    (List.Chain' (· > ·) prices →
      ∀ out, rsi prices p = .ok out → ∀ v : ℚ, some v ∈ out → v = 0) ∧
    rsi [10, 11, 12, 13, 14, 15] 3
      = .ok [none, none, none, some 100, some 100, some 100] := by
  have halpha0 : (0:ℚ) < 1 / p := by positivity
  have halpha1 : (1:ℚ) / p ≤ 1 := by
    rw [div_le_one (by exact_mod_cast hp)]
    exact_mod_cast hp
  refine ⟨?_, ?_, ?_⟩
  · intro hch out hok v hv
    rw [rsi_ok_of_valid hp hlen] at hok
    have hout := Except.ok.inj hok
    rw [← hout] at hv
    rcases List.mem_append.1 hv with hrep | hmap
    · have := List.eq_of_mem_replicate hrep; cases this
    have hincr := gainsLosses_incr prices hch
    have hl0 : ((((gainsLosses prices).take p).map Prod.snd).sum : ℚ) / p = 0 := by
      rw [List.sum_eq_zero, zero_div]
      intro x hx
      obtain ⟨pr, hpr, hx'⟩ := List.mem_map.1 hx
      rw [← hx']
      exact (hincr pr (List.mem_of_mem_take hpr)).2
    obtain ⟨w, hw, hww⟩ := List.mem_map.1 hmap
    have hvw : w = v := by injection hww
    subst hvw
    rcases List.mem_cons.1 hw with h0 | hr
    · rw [h0, hl0]
      exact rsiVal_loss_zero _
    · rw [hl0] at hr
      exact rsiScan_all_100 _ _ _ _ rfl
        (fun pr hpr => (hincr pr (List.mem_of_mem_drop hpr)).2) w hr
  · intro hch out hok v hv
    rw [rsi_ok_of_valid hp hlen] at hok
    have hout := Except.ok.inj hok
    rw [← hout] at hv
    rcases List.mem_append.1 hv with hrep | hmap
    · have := List.eq_of_mem_replicate hrep; cases this
    have hdecr := gainsLosses_decr prices hch
    have hg0 : ((((gainsLosses prices).take p).map Prod.fst).sum : ℚ) / p = 0 := by
      rw [List.sum_eq_zero, zero_div]
      intro x hx
      obtain ⟨pr, hpr, hx'⟩ := List.mem_map.1 hx
      rw [← hx']
      exact (hdecr pr (List.mem_of_mem_take hpr)).1
    have htake_ne : ((gainsLosses prices).take p).map Prod.snd ≠ [] := by
      simp only [ne_eq, List.map_eq_nil_iff, List.take_eq_nil_iff]
      push_neg
      refine ⟨by omega, ?_⟩
      intro hnil
      have := gainsLosses_length prices
      rw [hnil] at this
      simp at this
      omega
    have hl0 : (0:ℚ) < (((gainsLosses prices).take p).map Prod.snd).sum / p := by
      apply div_pos _ (by exact_mod_cast hp)
      apply List.sum_pos
      · intro x hx
        obtain ⟨pr, hpr, hx'⟩ := List.mem_map.1 hx
        rw [← hx']
        exact (hdecr pr (List.mem_of_mem_take hpr)).2
      · exact htake_ne
    obtain ⟨w, hw, hww⟩ := List.mem_map.1 hmap
    have hvw : w = v := by injection hww
    subst hvw
    rcases List.mem_cons.1 hw with h0 | hr
    · rw [h0, hg0]
      exact rsiVal_gain_zero hl0
    · rw [hg0] at hr
      exact rsiScan_all_0 halpha0 halpha1 _ _ _ rfl hl0
        (fun pr hpr => ⟨(hdecr pr (List.mem_of_mem_drop hpr)).1,
          (hdecr pr (List.mem_of_mem_drop hpr)).2⟩) w hr
  · norm_num [rsi, gainsLosses, rsiScan, rsiVal]
    simp [List.replicate_succ]

/-- Witness for C9 at the spec's example input. -/
theorem C9_rsi_extremes_witness :
    (List.Chain' (· < ·) ([10, 11, 12, 13, 14, 15] : List ℚ) →
      ∀ out, rsi [10, 11, 12, 13, 14, 15] 3 = .ok out → ∀ v : ℚ, some v ∈ out → v = 100) ∧
    (List.Chain' (· > ·) ([10, 11, 12, 13, 14, 15] : List ℚ) →
      ∀ out, rsi [10, 11, 12, 13, 14, 15] 3 = .ok out → ∀ v : ℚ, some v ∈ out → v = 0) ∧
    rsi [10, 11, 12, 13, 14, 15] 3
      = .ok [none, none, none, some 100, some 100, some 100] :=
  C9_rsi_extremes [10, 11, 12, 13, 14, 15] 3 (by norm_num) (by norm_num)
